import Mathlib

/-!
Verification of the evernote-migration pipeline.

Text is modelled as `List Char` (named `Str`): Python strings are embedded
as character lists so that slicing (`content[:i] + r + content[j:]`) becomes
`List.take` / `List.drop` algebra.  Machine-level concerns (file descriptors,
sqlite cursors, logging) are abstracted away; the filesystem is modelled as
explicit data (lists of existing path names, a size function for attachment
files).  The modules `src/constants.py` and `src/extractors.py` are imported
by the sources but are not part of the snapshot; the few facts needed from
them (the note extension, the attachments folder name, and the shape of the
pattern matchers) are modelled from the spec and marked as such below.
-/

/-- Python strings, embedded as lists of characters. -/
abbrev Str := List Char

/-- Python whitespace characters, the set stripped by `str.strip()` and
matched by the regex class `\s`. -/
def isPySpace (c : Char) : Bool :=
  c = ' ' || c = '\t' || c = '\n' || c = '\r' || c = '\x0b' || c = '\x0c'

/-- Strip characters satisfying `p` from both ends of a string
(Python `str.strip(chars)`). -/
def stripWhile (p : Char → Bool) (s : Str) : Str :=
  ((s.dropWhile p).reverse.dropWhile p).reverse

/-- Python `str.strip()` (no argument): strip whitespace from both ends. -/
def pyStrip (s : Str) : Str := stripWhile isPySpace s

/-- Python `str.strip("'")`: strip single-quote characters from both ends. -/
def stripQuotes (s : Str) : Str := stripWhile (fun c => c = '\'') s

/-- Python `str.replace(c, '')` for a single character: remove all
occurrences of `c`. -/
def removeChar (c : Char) (s : Str) : Str := s.filter (fun a => a ≠ c)

/-- Python `str.replace(a, b)` for single characters: replace every
occurrence of `a` by `b`. -/
def replaceChar (a b : Char) (s : Str) : Str :=
  s.map (fun c => if c = a then b else c)

/-- Python `str.lower()` restricted to the ASCII range (the tag characters
the pipeline manipulates). -/
def toLowerStr (s : Str) : Str := s.map Char.toLower

/-- The capture of the regex `^-*(?P<name>.+)$` on a nonempty newline-free
string: the greedy `-*` eats leading dashes but `.+` keeps at least one
character. -/
def stripDashes (s : Str) : Str :=
  let t := s.dropWhile (fun c => c = '-')
  if t = [] then s.drop (s.length - 1) else t

/-- Model of `_REGEX_LEADING_DASH.sub(r'\g<name>', name)` from
`src/converters.py`: the pattern `^-*(?P<name>.+)$` (no MULTILINE) matches
only when the string has a nonempty newline-free core, optionally followed
by one trailing newline (`$` also matches just before a trailing newline);
on a match the whole core is replaced by the capture. -/
def regexSubLeadingDash (s : Str) : Str :=
  if s.contains '\n' then
    if s.getLast? = some '\n' && !s.dropLast.contains '\n' && !s.dropLast.isEmpty then
      stripDashes s.dropLast ++ ['\n']
    else s
  else if s = [] then s else stripDashes s

/-- Embedding of `standardize_note_name` (src/converters.py): strip leading
dashes, strip double and single quotes, replace slashes by dashes, strip
question and exclamation marks, in that order. -/
def standardize_note_name (s : Str) : Str :=
  removeChar '!'
    (removeChar '?'
      (replaceChar '/' '-'
        (removeChar '\''
          (removeChar '"' (regexSubLeadingDash s)))))

/-- Embedding of `_standardize_tag` (src/converters.py): remove dashes,
remove underscores, then lower-case. -/
def standardize_tag (t : Str) : Str := toLowerStr (removeChar '_' (removeChar '-' t))

/-- Fuel-indexed worker for `replaceAll`; the fuel only serves to make the
recursion structural (it is always called with enough fuel to run to the
end of the string). -/
def replaceAllF (pat rep : Str) : Nat → Str → Str
  | 0, s => s
  | _ + 1, [] => []
  | fuel + 1, c :: cs =>
    if pat ≠ [] ∧ pat.isPrefixOf (c :: cs) then
      rep ++ replaceAllF pat rep fuel ((c :: cs).drop pat.length)
    else
      c :: replaceAllF pat rep fuel cs

/-- Python `str.replace(pat, rep)` for a nonempty pattern: replace
non-overlapping occurrences left to right.  (For the empty pattern the
model returns the string unchanged; the pipeline only ever uses patterns
beginning with a hash sign.) -/
def replaceAll (pat rep : Str) (s : Str) : Str := replaceAllF pat rep s.length s

/-- Attempted match of the pattern `tags:\s*\[(?P<tags>[^\]]+)\]$`
(MULTILINE) anchored at the start of `s`; returns the `tags` capture.
The match is deterministic: `\s*` takes the maximal whitespace run (the
following literal `[` is not whitespace), `[^\]]+` takes the maximal
bracket-free run, and `$` matches at the end of the string or just before
a newline. -/
def matchTagsAt (s : Str) : Option Str :=
  if ('t' :: 'a' :: 'g' :: 's' :: ':' :: []).isPrefixOf s then
    match (s.drop 5).dropWhile isPySpace with
    | '[' :: rest =>
      let grp := rest.takeWhile (fun c => c ≠ ']')
      if grp = [] then none
      else
        match rest.dropWhile (fun c => c ≠ ']') with
        | ']' :: rest2 =>
          if rest2 = [] || rest2.head? = some '\n' then some grp else none
        | _ => none
    | _ => none
  else none

/-- Worker for `searchTags`: scan the text one character at a time; the
flag records whether the current position is a line start (position 0 or
just after a newline), the only positions where the anchored pattern can
match. -/
def searchTagsAux : Bool → Str → Option Str
  | true, s =>
    match matchTagsAt s with
    | some g => some g
    | none =>
      match s with
      | [] => none
      | c :: t => searchTagsAux (c = '\n') t
  | false, s =>
    match s with
    | [] => none
    | c :: t => searchTagsAux (c = '\n') t

/-- Model of `_REGEX_TAGS.search(content)` (leftmost match): the anchor `^`
restricts candidate positions to the start of the text and to positions
just after a newline, visited left to right. -/
def searchTags (s : Str) : Option Str := searchTagsAux true s

/-- Embedding of `standardize_tags` (src/converters.py): find the first
tag-declaration match, split its capture on commas, strip whitespace then
single quotes from each token, and for every token whose normalized form
differs replace every occurrence of `#token` by `#normalized`, sequentially. -/
def standardize_tags (content : Str) : Str :=
  match searchTags content with
  | none => content
  | some g =>
    let tags := (g.splitOn ',').map (fun t => stripQuotes (pyStrip t))
    tags.foldl
      (fun c tag =>
        let tagNew := standardize_tag tag
        if tagNew ≠ tag then replaceAll ('#' :: tag) ('#' :: tagNew) c else c)
      content

/-- Association-list lookup, the model of Python `dict.get`. -/
def alookup {κ α : Type} [DecidableEq κ] (m : List (κ × α)) (k : κ) : Option α :=
  (m.find? (fun p => decide (p.1 = k))).map (fun p => p.2)

/-- Model of Python `dict[k] = v`: overwrite the binding in place if the key
exists, otherwise append a new binding (dicts preserve insertion order). -/
def dictSet {κ α : Type} [DecidableEq κ] (m : List (κ × α)) (k : κ) (v : α) :
    List (κ × α) :=
  if (alookup m k).isSome then m.map (fun p => if p.1 = k then (p.1, v) else p)
  else m ++ [(k, v)]

/-- Evernote note identifier record (`NoteID` in src/evernote_db.py). -/
structure NoteID where
  id : Str
  date_created : Option Nat
deriving DecidableEq

/-- One row of the external read-only data source: the query in
`EvernoteDB.__finalize` yields id, label and creation timestamp
(milliseconds) of every record, with logically-deleted records excluded by
the `where deleted IS NULL` clause, modelled by the `deleted` flag.
Labels stand for already-normalized titles (`normalize_string`, a Unicode
accent-folding step, is applied upstream and outside this model). -/
structure NoteRow where
  id : Str
  label : Str
  created : Nat
  deleted : Bool
deriving DecidableEq

/-- One scan step of `EvernoteDB.__finalize`: append the note id to the
title's candidate list, or create a fresh singleton binding.  (Python
treats an empty candidate list as absent, in which case the dict assignment
overwrites it.) -/
def indexAdd (m : List (Str × List NoteID)) (title : Str) (nid : NoteID) :
    List (Str × List NoteID) :=
  match alookup m title with
  | some (x :: xs) => dictSet m title ((x :: xs) ++ [nid])
  | _ => dictSet m title [nid]

/-- Model of the one-time scan in `EvernoteDB.__finalize`: build the
title-to-candidates index from the data source, skipping deleted records;
`datetime.fromtimestamp(created // 1000)` stores the creation instant at
second granularity. -/
def buildIndex (rows : List NoteRow) : List (Str × List NoteID) :=
  rows.foldl
    (fun m row =>
      if row.deleted then m
      else indexAdd m row.label ⟨row.id, some (row.created / 1000)⟩)
    []

/-- Embedding of `EvernoteDB.get_id_from_note` (src/evernote_db.py):
a falsy (absent or empty) title fails at once; a unique candidate wins
regardless of the date; several candidates are filtered by exact creation
date when one is supplied, and only a singleton filter result wins. -/
def get_id_from_note (m : List (Str × List NoteID)) (title : Option Str)
    (date_created : Option Nat) : Option Str :=
  match title with
  | none => none
  | some t =>
    if t = [] then none
    else
      match alookup m t with
      | some (n :: ns) =>
        if ns = [] then some n.id
        else
          match date_created with
          | some d =>
            match (n :: ns).filter (fun x => decide (x.date_created = some d)) with
            | [c] => some c.id
            | _ => none
          | none => none
      | _ => none

/-- Modelled from the spec: `src/constants.py` is not in the snapshot; the
note files carry a fixed extension, and the orchestrator scans the target
folder with the glob pattern `*.md`. -/
def NOTE_EXTENSION : Str := ".md".toList

/-- Modelled from the spec: `src/constants.py` is not in the snapshot; a
reserved subfolder of the notebook holds the migrated attachments. -/
def ATTACHMENTS_FOLDER : Str := "attachments".toList

/-- The while-loop of `EvernoteMigration._get_note_filename`, with fuel to
make the recursion structural: probe `name + ext`; if it exists and
overwrite is off, append `-count` to the current name (`note_name +=
f'-{count}'`) and retry.  Existing files are modelled as the list of their
names relative to the notebook folder. -/
def getNoteFilenameLoop (existing : List Str) (overwrite : Bool) :
    Str → Nat → Nat → Option Str
  | _, _, 0 => none
  | name, count, fuel + 1 =>
    let note_path := name ++ NOTE_EXTENSION
    if note_path ∈ existing then
      if overwrite then some note_path
      else
        getNoteFilenameLoop existing overwrite
          (name ++ '-' :: (Nat.repr (count + 1)).toList) (count + 1) fuel
    else some note_path

/-- Embedding of `EvernoteMigration._get_note_filename`: standardize the
folder name, then run the probe loop.  The fuel `existing.length + 1`
always suffices (proved below), so the result is never `none`. -/
def get_note_filename (existing : List Str) (overwrite : Bool)
    (note_folder : Str) : Option Str :=
  getNoteFilenameLoop existing overwrite (standardize_note_name note_folder) 0
    (existing.length + 1)

/-- The candidate sequence actually probed by the loop: each candidate
appends `-k` to the previous one. -/
def cand (base : Str) : Nat → Str
  | 0 => base
  | k + 1 => cand base k ++ '-' :: (Nat.repr (k + 1)).toList

/-- Attachment metadata (`AttachmentMetadata` in src/metadata.py): the new
name and the byte size of the attachment file. -/
structure AttachmentMetadata where
  name : Str
  size : Nat
deriving DecidableEq

/-- A pattern match inside a note body, reduced to the span of its `path`
named capture group.  Modelled from the spec: `src/extractors.py` is not in
the snapshot; the file and image patterns are data whose matches expose a
`path` capture over the text they were run on. -/
structure AMatch where
  b : Nat
  e : Nat
deriving DecidableEq

/-- The captured text of a match: the span's slice of the text the pattern
was run on. -/
def seg (orig : Str) (m : AMatch) : Str := (orig.drop m.b).take (m.e - m.b)

/-- Python slicing edit `content[:b] + rep + content[e:]`. -/
def splice (content : Str) (b e : Nat) (rep : Str) : Str :=
  content.take b ++ rep ++ content.drop e

/-- Python `os.path.basename`: the part after the last slash. -/
def baseNameOf (p : Str) : Str := (p.reverse.takeWhile (fun c => c ≠ '/')).reverse

/-- Extension part of Python `os.path.splitext` on a slash-free name: the
suffix from the last dot, unless every character before that dot is itself
a dot (leading dots are not extension separators). -/
def splitExtOfBase (b : Str) : Str :=
  let suf := (b.reverse.takeWhile (fun c => c ≠ '.')).reverse
  if suf.length = b.length then []
  else if (b.take (b.length - suf.length - 1)).all (fun c => c = '.') then []
  else '.' :: suf

/-- Root part of Python `os.path.splitext` on a slash-free name. -/
def splitExtRootOfBase (b : Str) : Str :=
  b.take (b.length - (splitExtOfBase b).length)

/-- The extension of an attachment path:
`os.path.splitext(os.path.basename(asset_path))[1]`. -/
def extOf (p : Str) : Str := splitExtOfBase (baseNameOf p)

/-- State of the attachment scan inside `EvernoteMigration._standardize_note`:
the evolving body text, the per-kind rename table `attachments`, the
accumulated `attachments_metadata`, and the supply counter for fresh names
(`uuid.uuid4()` is modelled as an injective supply `gen` indexed by this
counter). -/
structure ScanState where
  content : Str
  attachments : List (Str × Str)
  metadata : List AttachmentMetadata
  counter : Nat
deriving DecidableEq

/-- One iteration of the inner loop of `_standardize_note`: on a
first-time attachment reference, mint `asset_name = gen counter ++ ext`,
bind the original path to `attachments/asset_name`, and record one
metadata entry whose size is the original file's size (`fileSize` models
`os.path.getsize` relative to the note folder); on a repeated reference,
reuse the remembered new path.  Either way the `path` span is rewritten in
place. -/
def stepA (gen : Nat → Str) (fileSize : Str → Nat) (orig : Str)
    (st : ScanState) (m : AMatch) : ScanState :=
  let asset_path := seg orig m
  match alookup st.attachments asset_path with
  | some asset_path_new =>
    { st with content := splice st.content m.b m.e asset_path_new }
  | none =>
    let asset_name := gen st.counter ++ extOf asset_path
    let asset_path_new := ATTACHMENTS_FOLDER ++ '/' :: asset_name
    { content := splice st.content m.b m.e asset_path_new
      attachments := (asset_path, asset_path_new) :: st.attachments
      metadata := st.metadata ++ [⟨asset_name, fileSize asset_path⟩]
      counter := st.counter + 1 }

/-- One reference kind's pass of `_standardize_note`: the matches were
computed on `content0` (`regex.finditer(content)`) and are processed in
reverse position order, starting from an empty rename table. -/
def processKind (gen : Nat → Str) (fileSize : Str → Nat) (content0 : Str)
    (ms : List AMatch) (meta0 : List AttachmentMetadata) (c0 : Nat) : ScanState :=
  (ms.reverse).foldl (stepA gen fileSize content0)
    ⟨content0, [], meta0, c0⟩

/-- Recursive form of `processKind`'s fold (the head match is processed
last), used for the proofs. -/
def runK (gen : Nat → Str) (fileSize : Str → Nat) (orig : Str) :
    List AMatch → ScanState → ScanState
  | [], st => st
  | m :: ms, st => stepA gen fileSize orig (runK gen fileSize orig ms st) m

/-- The attachment passes of `_standardize_note` over the two reference
kinds `[REGEX_FILE, REGEX_IMAGE]`: the rename table restarts empty for the
second kind, whose matches are computed on the already-rewritten body,
while metadata and the name supply are shared. -/
def standardizeAttachments (gen : Nat → Str) (fileSize : Str → Nat)
    (content : Str) (mFile mImage : Str → List AMatch) : ScanState :=
  let st1 := processKind gen fileSize content (mFile content) [] 0
  processKind gen fileSize st1.content (mImage st1.content) st1.metadata st1.counter

/-- Well-formed match list over a text: spans are in ascending position
order, non-overlapping, and within bounds — the shape `finditer` returns. -/
def spansOK (orig : Str) : Nat → List AMatch → Bool
  | p, [] => decide (p ≤ orig.length)
  | p, m :: ms => decide (p ≤ m.b) && decide (m.b ≤ m.e) && spansOK orig m.e ms

/-- The body rebuilt around the matches: unmatched segments are kept, and
every matched span is replaced by `f` of its captured text. -/
def renderFrom (orig : Str) (f : Str → Str) : Nat → List AMatch → Str
  | p, [] => orig.drop p
  | p, m :: ms => ((orig.take m.b).drop p) ++ f (seg orig m) ++ renderFrom orig f m.e ms

/-- The replacement a scan state assigns to an original attachment path. -/
def assignOf (st : ScanState) (q : Str) : Str := (alookup st.attachments q).getD q

/-- A note-link pattern match, reduced to its named captures: the target
`url` span, the external `id`, and the display `label`.  Modelled from the
spec: `src/extractors.py` is not in the snapshot; the link patterns are
data whose matches expose `url`, `id` and `label` captures. -/
structure LinkMatch where
  id : Str
  label : Str
  ub : Nat
  ue : Nat
deriving DecidableEq

/-- One iteration of the rewrite loop in
`EvernoteMigration._process_note_links`: resolve the match's id in the
id-to-container map; on success splice `./container` over the `url` span
and mark the body dirty, otherwise leave both untouched. -/
def stepLink (dbm : List (Str × Str)) (st : Str × Bool) (m : LinkMatch) :
    Str × Bool :=
  match alookup dbm m.id with
  | none => st
  | some c => (splice st.1 m.ub m.ue ('.' :: '/' :: c), true)

/-- One pattern's matches, processed in reverse position order. -/
def processLinkMatches (dbm : List (Str × Str)) (st : Str × Bool)
    (ms : List LinkMatch) : Str × Bool :=
  (ms.reverse).foldl (stepLink dbm) st

/-- The per-document part of `_process_note_links`: iterate the link
patterns (`REGEXES_NOTE_LINK`, modelled as matcher functions), each run on
the current body text, starting clean. -/
def processNoteLinksBody (dbm : List (Str × Str))
    (fs : List (Str → List LinkMatch)) (content : Str) : Str × Bool :=
  fs.foldl (fun st f => processLinkMatches dbm st (f st.1)) (content, false)

/-- The store-back decision of `_process_note_links`: the body is written
only when the dirty flag is set (`if is_dirty ... save_note_content`);
`none` models the absence of a write. -/
def processNoteLinksWrite (dbm : List (Str × Str))
    (fs : List (Str → List LinkMatch)) (content : Str) : Option Str :=
  let st := processNoteLinksBody dbm fs content
  if st.2 then some st.1 else none

/-- One link occurrence's accounting in `_process_backlinks`: append the
linking note's name to the target's list, or open a fresh singleton list. -/
def backAdd (m : List (Str × List Str)) (container : Str) (name : Str) :
    List (Str × List Str) :=
  match alookup m container with
  | some (x :: xs) => dictSet m container ((x :: xs) ++ [name])
  | _ => dictSet m container [name]

/-- The reverse map built by `_process_backlinks`: for every note in scan
order, take the basenames of its link targets (`extract_notes_links` is
modelled from the spec as a matcher returning the captured target names)
and append the note's name under each target, duplicates included. -/
def buildBacklinksMap (extractLinks : Str → List Str)
    (notes : List (Str × Str)) : List (Str × List Str) :=
  notes.foldl
    (fun m note =>
      ((extractLinks note.2).map baseNameOf).foldl
        (fun m c => backAdd m c note.1) m)
    []

/-- Embedding of `EvernoteMigration._inject_backlinks`: append a separator,
a heading, and one `- [stem](./name)` list item per backlink. -/
def inject_backlinks (backlinks : List Str) (content : Str) : Str :=
  content ++ "\n---\n\n".toList ++ "## Backlinks\n\n".toList
    ++ (backlinks.map
        (fun b => "- [".toList ++ splitExtRootOfBase b ++ "](./".toList
          ++ b ++ ")\n".toList)).flatten

/-- The write phase of `_process_backlinks`: for every target in the map,
load its body from storage (the `notes` list), inject the backlinks, and
persist.  Loading a target that does not exist raises in Python; that
failure is modelled as `none`. -/
def processBacklinksWrites (extractLinks : Str → List Str)
    (notes : List (Str × Str)) : Option (List (Str × Str)) :=
  let m := buildBacklinksMap extractLinks notes
  if m.all (fun kv => (alookup notes kv.1).isSome) then
    some (m.map (fun kv => (kv.1, inject_backlinks kv.2 ((alookup notes kv.1).getD []))))
  else none

/-- Specification-side description of the backlink sources of a target:
the names of the notes that link to it, in scan order, one entry per link
occurrence. -/
def incomingLinks (extractLinks : Str → List Str) (notes : List (Str × Str))
    (t : Str) : List Str :=
  notes.flatMap
    (fun note =>
      (((extractLinks note.2).map baseNameOf).filter (fun c => decide (c = t))).map
        (fun _ => note.1))

/-- Embedding of `EvernoteMove._move_file` (src/evernote_move.py) over a
filesystem modelled as the list of existing paths: a missing source is
tolerated (`False`, nothing moved), an existing destination raises
`MoveDuplicateFileError` (the error carries the destination path), and
otherwise the file is moved. -/
def move_file (fs : List String) (source_path dest_path : String) :
    Except String (Bool × List String) :=
  if source_path ∈ fs then
    if dest_path ∈ fs then Except.error dest_path
    else Except.ok (true, dest_path :: fs.erase source_path)
  else Except.ok (false, fs)

/-- Note metadata (`NoteMetadata` in src/metadata.py).  Timestamps are
modelled as abstract instants (`Nat`, second granularity): the report's
`strftime`/`strptime` round-trip with the fixed format
`%Y-%m-%d %H:%M:%S` is the identity at that granularity, so formatting is
not modelled textually. -/
structure NoteMetadata where
  id : Option Str
  name : Str
  title : Option Str
  size : Nat
  url : Option Str
  date_created : Option Nat
  date_updated : Option Nat
deriving DecidableEq

/-- A note as reconstructed from the report (`Note` in src/metadata.py). -/
structure Note where
  body : NoteMetadata
  attachments : List AttachmentMetadata
deriving DecidableEq

/-- One CSV row of the report, typed by column.  `None` values are written
as empty cells by the csv writer: absent id/title/attachment-name become
the empty string, absent dates and attachment sizes become empty cells
(`Option`), which the reader's parsers then choke on. -/
structure ReportRow where
  id : Str
  name : Str
  title : Str
  dateCreated : Option Nat
  dateUpdated : Option Nat
  size : Nat
  attName : Str
  attSize : Option Nat
deriving DecidableEq

/-- Embedding of `add_report_csv` (src/report.py): one row per attachment,
or a single row with empty attachment fields when there are none. -/
def add_report_csv (note : NoteMetadata) (atts : List AttachmentMetadata) :
    List ReportRow :=
  if atts = [] then
    [⟨note.id.getD [], note.name, note.title.getD [], note.date_created,
      note.date_updated, note.size, [], none⟩]
  else
    atts.map
      (fun a =>
        ⟨note.id.getD [], note.name, note.title.getD [], note.date_created,
         note.date_updated, note.size, a.name, some a.size⟩)

/-- Embedding of `_get_attachment_metadata_from_line`: an empty attachment
name means no attachment; a nonempty name with an empty size cell makes
`int('')` raise, modelled as the outer `none`. -/
def parseAttCell (r : ReportRow) : Option (Option AttachmentMetadata) :=
  if r.attName = [] then some none
  else
    match r.attSize with
    | some s => some (some ⟨r.attName, s⟩)
    | none => none

/-- Embedding of `_get_note_metadata_from_line`: both date cells are parsed
unconditionally with `strptime`, which raises on an empty cell (`none`);
the id and title come back as plain (possibly empty) strings and the url
is not stored in the report. -/
def noteMetadataFromLine (r : ReportRow) : Option NoteMetadata :=
  match r.dateCreated, r.dateUpdated with
  | some dc, some du => some ⟨some r.id, r.name, some r.title, r.size, none, some dc, some du⟩
  | _, _ => none

/-- The row loop of `read_report_csv` (src/report.py): parse the attachment
cell first, then on a name change (or at the first row) close the current
note and open a new one from the row, then append the attachment if any;
the last note is appended after the loop. -/
def readLoop : List ReportRow → Option Note → List Note → Option (List Note)
  | [], cur, acc => some (acc ++ cur.toList)
  | r :: rs, cur, acc =>
    match parseAttCell r with
    | none => none
    | some att =>
      match cur with
      | some n =>
        if n.body.name = r.name then
          readLoop rs (some ⟨n.body, n.attachments ++ att.toList⟩) acc
        else
          match noteMetadataFromLine r with
          | none => none
          | some b => readLoop rs (some ⟨b, att.toList⟩) (acc ++ [n])
      | none =>
        match noteMetadataFromLine r with
        | none => none
        | some b => readLoop rs (some ⟨b, att.toList⟩) acc

/-- Embedding of `read_report_csv`: run the row loop from an empty state. -/
def read_report_csv (rows : List ReportRow) : Option (List Note) :=
  readLoop rows none []

/-- Invariant of the per-kind rename table: bindings carry strictly
decreasing supply counters in `[lo, hi)` (the head is the most recent), and
every new path has the shape `attachments/(gen c ++ ext-of-original)`. -/
def tableInv (gen : Nat → Str) (lo : Nat) : List (Str × Str) → Nat → Prop
  | [], hi => lo ≤ hi
  | b :: rest, hi =>
    ∃ c, b.2 = ATTACHMENTS_FOLDER ++ '/' :: (gen c ++ extOf b.1) ∧
      lo ≤ c ∧ c + 1 ≤ hi ∧ tableInv gen lo rest c

-- Concrete evaluations of the converters, checking the embedding against
-- the Python functions' behaviour on small inputs.
example : standardize_note_name "--a/b?!".toList = "a-b".toList := by decide
example : standardize_note_name "/a".toList = "-a".toList := by decide
example : standardize_note_name "-a".toList = "a".toList := by decide
example : standardize_tag "Foo_Bar".toList = "foobar".toList := by decide
example : searchTags "x\ntags: [a, b]\ny".toList = some "a, b".toList := by decide
example : replaceAll "aa".toList "b".toList "aaa".toList = "ba".toList := by decide
example :
    standardize_tags "tags: [foo-bar]\n#foo-bar x".toList
      = "tags: [foo-bar]\n#foobar x".toList := by decide

/-! ### Support lemmas for the converters -/

theorem mem_removeChar {a c : Char} {s : Str} (h : a ∈ removeChar c s) :
    a ∈ s ∧ a ≠ c := by
  simpa [removeChar] using h

theorem removeChar_eq_self {c : Char} {s : Str} (h : c ∉ s) :
    removeChar c s = s := by
  unfold removeChar
  refine List.filter_eq_self.mpr (fun a ha => ?_)
  simp only [ne_eq, decide_eq_true_eq]
  intro he
  exact h (he ▸ ha)

theorem replaceChar_eq_self {a b : Char} {s : Str} (h : a ∉ s) :
    replaceChar a b s = s := by
  unfold replaceChar
  have hc : ∀ x ∈ s, (if x = a then b else x) = x := by
    intro x hx
    rw [if_neg]
    intro he
    exact h (he ▸ hx)
  calc s.map (fun c => if c = a then b else c) = s.map id := List.map_congr_left hc
    _ = s := List.map_id s

theorem std_no_special (x : Str) :
    '"' ∉ standardize_note_name x ∧ '\'' ∉ standardize_note_name x ∧
    '/' ∉ standardize_note_name x ∧ '?' ∉ standardize_note_name x ∧
    '!' ∉ standardize_note_name x := by
  unfold standardize_note_name
  refine ⟨?_, ?_, ?_, ?_, ?_⟩ <;> intro h
  · obtain ⟨h, _⟩ := mem_removeChar h
    obtain ⟨h, _⟩ := mem_removeChar h
    simp only [replaceChar, List.mem_map] at h
    obtain ⟨c, hc, hceq⟩ := h
    have : c = '"' := by
      by_cases hca : c = '/'
      · simp [hca] at hceq
      · simpa [hca] using hceq
    subst this
    obtain ⟨h, _⟩ := mem_removeChar hc
    exact absurd (mem_removeChar h).2 (by simp)
  · obtain ⟨h, _⟩ := mem_removeChar h
    obtain ⟨h, _⟩ := mem_removeChar h
    simp only [replaceChar, List.mem_map] at h
    obtain ⟨c, hc, hceq⟩ := h
    have : c = '\'' := by
      by_cases hca : c = '/'
      · simp [hca] at hceq
      · simpa [hca] using hceq
    subst this
    exact absurd (mem_removeChar hc).2 (by simp)
  · obtain ⟨h, _⟩ := mem_removeChar h
    obtain ⟨h, _⟩ := mem_removeChar h
    simp only [replaceChar, List.mem_map] at h
    obtain ⟨c, hc, hceq⟩ := h
    by_cases hca : c = '/'
    · simp [hca] at hceq
    · simp [hca] at hceq
  · obtain ⟨h, _⟩ := mem_removeChar h
    exact absurd (mem_removeChar h).2 (by simp)
  · exact absurd (mem_removeChar h).2 (by simp)

theorem stripDashes_of_head_ne {s : Str} (h : s.head? ≠ some '-') :
    stripDashes s = s := by
  unfold stripDashes
  match s with
  | [] => simp
  | c :: cs =>
    have hc : ¬ (c = '-') := by
      intro he
      exact h (by simp [he])
    simp [List.dropWhile_cons, hc]

theorem regexSubLeadingDash_of_head_ne {s : Str} (h : s.head? ≠ some '-') :
    regexSubLeadingDash s = s := by
  unfold regexSubLeadingDash
  split
  · split
    · next hb =>
      simp only [Bool.and_eq_true, Bool.not_eq_true', decide_eq_true_eq] at hb
      obtain ⟨⟨h1, h2⟩, h3⟩ := hb
      have hdlne : s.dropLast ≠ [] := by
        intro he
        rw [he] at h3
        simp at h3
      have hsne : s ≠ [] := by
        intro he
        subst he
        simp at hdlne
      have hhead : s.dropLast.head? = s.head? := by
        match s, hsne with
        | [a], _ => simp at hdlne
        | a :: b :: t, _ => simp
      have hsd : stripDashes s.dropLast = s.dropLast :=
        stripDashes_of_head_ne (by rw [hhead]; exact h)
      rw [hsd]
      have hlq := List.getLast?_eq_getLast s hsne
      rw [hlq] at h1
      have hlast : s.getLast hsne = '\n' := Option.some.inj h1
      rw [← hlast]
      exact List.dropLast_append_getLast hsne
    · rfl
  · split
    · rfl
    · exact stripDashes_of_head_ne h

/-! ### C8 -/

/-- C8: the claim as stated is false: note-name standardization is not
idempotent on every input.  On `"/a"` the slash-to-dash replacement
manufactures a leading dash, which a second application then strips:
`standardize("/a") = "-a"` but `standardize("-a") = "a"`. -/
theorem standardize_note_name_not_idempotent :
    standardize_note_name (standardize_note_name "/a".toList)
      ≠ standardize_note_name "/a".toList := by decide

/-- C8 (amended): note-name standardization is idempotent on every input
whose standardized form does not begin with a dash; equivalently, any
output not starting with a dash is a fixpoint (an already-clean name
passes through unchanged). -/
theorem standardize_note_name_idem (x : Str)
    (h : (standardize_note_name x).head? ≠ some '-') :
    standardize_note_name (standardize_note_name x) = standardize_note_name x := by
  obtain ⟨hq, hsq, hsl, hqm, hem⟩ := std_no_special x
  conv_lhs => rw [standardize_note_name]
  rw [regexSubLeadingDash_of_head_ne h]
  rw [removeChar_eq_self hq, removeChar_eq_self hsq, replaceChar_eq_self hsl,
    removeChar_eq_self hqm, removeChar_eq_self hem]

/-- C8 witness: a concrete input whose standardized form is dash-free. -/
theorem standardize_note_name_idem_witness :
    (standardize_note_name "a!b".toList).head? ≠ some '-' ∧
      standardize_note_name (standardize_note_name "a!b".toList)
        = standardize_note_name "a!b".toList :=
  ⟨by decide, standardize_note_name_idem "a!b".toList (by decide)⟩

/-! ### C7 -/

/-- C7: for every single-file move: an existing source with an existing
destination raises the distinct duplicate-on-move error; a missing source
returns not-moved without raising; and only an existing source with a free
destination is moved (source removed, destination created). -/
theorem move_file_spec (fsys : List String) (src dst : String) :
    (src ∈ fsys → dst ∈ fsys → move_file fsys src dst = Except.error dst) ∧
    (src ∉ fsys → move_file fsys src dst = Except.ok (false, fsys)) ∧
    (src ∈ fsys → dst ∉ fsys →
      move_file fsys src dst = Except.ok (true, dst :: fsys.erase src)) := by
  refine ⟨fun hs hd => ?_, fun hs => ?_, fun hs hd => ?_⟩
  · simp [move_file, hs, hd]
  · simp [move_file, hs]
  · simp [move_file, hs, hd]

/-- C7 witness: the three branches at concrete filesystems. -/
theorem move_file_spec_witness :
    move_file ["n.md", "d/n.md"] "n.md" "d/n.md" = Except.error "d/n.md" ∧
    move_file ["d/n.md"] "n.md" "d/n.md" = Except.ok (false, ["d/n.md"]) ∧
    move_file ["n.md"] "n.md" "d/n.md" = Except.ok (true, ["d/n.md"]) :=
  ⟨(move_file_spec ["n.md", "d/n.md"] "n.md" "d/n.md").1 (by decide) (by decide),
   (move_file_spec ["d/n.md"] "n.md" "d/n.md").2.1 (by decide),
   (move_file_spec ["n.md"] "n.md" "d/n.md").2.2 (by decide) (by decide)⟩

/-! ### C1 -/

/-- C1 counterexample: the claim quantifies over every resolve call, but a
record whose (normalized) title is the empty string is reachable and then
the unique-candidate rule is violated: the index holds exactly one
candidate for the title, yet `get_id_from_note` returns nothing because of
the falsy-title guard `if not title`. -/
theorem get_id_from_note_counterexample :
    alookup (buildIndex [⟨"id1".toList, [], 123, false⟩]) []
        = some [⟨"id1".toList, some 0⟩] ∧
      get_id_from_note (buildIndex [⟨"id1".toList, [], 123, false⟩]) (some []) none
        = none := by decide

/-- C1 (amended): for every index built from the external source and every
resolve call with a nonempty title: an unknown title yields nothing; a
unique candidate wins regardless of the supplied date; with several
candidates and a supplied date, the unique exact-date match wins and any
other filter cardinality yields nothing; with several candidates and no
date, the result is nothing. -/
theorem get_id_from_note_spec (rows : List NoteRow) (t : Str) (d : Option Nat)
    (ht : t ≠ []) :
    (alookup (buildIndex rows) t = none →
      get_id_from_note (buildIndex rows) (some t) d = none) ∧
    (∀ n : NoteID, alookup (buildIndex rows) t = some [n] →
      get_id_from_note (buildIndex rows) (some t) d = some n.id) ∧
    (∀ l : List NoteID, alookup (buildIndex rows) t = some l → 2 ≤ l.length →
      (∀ dv : Nat, d = some dv →
        (∀ c : NoteID, l.filter (fun x => decide (x.date_created = some dv)) = [c] →
          get_id_from_note (buildIndex rows) (some t) d = some c.id) ∧
        ((l.filter (fun x => decide (x.date_created = some dv))).length ≠ 1 →
          get_id_from_note (buildIndex rows) (some t) d = none)) ∧
      (d = none → get_id_from_note (buildIndex rows) (some t) d = none)) := by
  refine ⟨fun h => ?_, fun n h => ?_, fun l h hlen => ?_⟩
  · simp [get_id_from_note, ht, h]
  · simp [get_id_from_note, ht, h]
  · obtain ⟨n, ns, rfl⟩ : ∃ n ns, l = n :: ns := by
      cases l with
      | nil => simp at hlen
      | cons a as => exact ⟨a, as, rfl⟩
    have hns : ns ≠ [] := by
      intro he
      subst he
      simp at hlen
    refine ⟨fun dv hd => ?_, fun hd => ?_⟩
    · subst hd
      constructor
      · intro c hc
        simp only [get_id_from_note, if_neg ht, h, if_neg hns, hc]
      · intro hlne
        simp only [get_id_from_note, if_neg ht, h, if_neg hns]
        rcases hf : (n :: ns).filter (fun x => decide (x.date_created = some dv)) with _ | ⟨a, rest⟩
        · rw [hf]
        · rcases rest with _ | ⟨b, rest2⟩
          · rw [hf] at hlne
            simp at hlne
          · rw [hf]
    · subst hd
      simp only [get_id_from_note, if_neg ht, h, if_neg hns]

/-- C1 witness: the amended theorem applied to a concrete two-candidate
index. -/
theorem get_id_from_note_spec_witness :
    (alookup (buildIndex [⟨"i1".toList, "a".toList, 5000, false⟩,
        ⟨"i2".toList, "a".toList, 7000, false⟩]) "a".toList = none →
      get_id_from_note (buildIndex [⟨"i1".toList, "a".toList, 5000, false⟩,
        ⟨"i2".toList, "a".toList, 7000, false⟩]) (some "a".toList) (some 7) = none) ∧
    (∀ n : NoteID, alookup (buildIndex [⟨"i1".toList, "a".toList, 5000, false⟩,
        ⟨"i2".toList, "a".toList, 7000, false⟩]) "a".toList = some [n] →
      get_id_from_note (buildIndex [⟨"i1".toList, "a".toList, 5000, false⟩,
        ⟨"i2".toList, "a".toList, 7000, false⟩]) (some "a".toList) (some 7) = some n.id) ∧
    (∀ l : List NoteID, alookup (buildIndex [⟨"i1".toList, "a".toList, 5000, false⟩,
        ⟨"i2".toList, "a".toList, 7000, false⟩]) "a".toList = some l → 2 ≤ l.length →
      (∀ dv : Nat, (some 7 : Option Nat) = some dv →
        (∀ c : NoteID, l.filter (fun x => decide (x.date_created = some dv)) = [c] →
          get_id_from_note (buildIndex [⟨"i1".toList, "a".toList, 5000, false⟩,
            ⟨"i2".toList, "a".toList, 7000, false⟩]) (some "a".toList) (some 7) = some c.id) ∧
        ((l.filter (fun x => decide (x.date_created = some dv))).length ≠ 1 →
          get_id_from_note (buildIndex [⟨"i1".toList, "a".toList, 5000, false⟩,
            ⟨"i2".toList, "a".toList, 7000, false⟩]) (some "a".toList) (some 7) = none)) ∧
      ((some 7 : Option Nat) = none →
        get_id_from_note (buildIndex [⟨"i1".toList, "a".toList, 5000, false⟩,
          ⟨"i2".toList, "a".toList, 7000, false⟩]) (some "a".toList) (some 7) = none)) :=
  get_id_from_note_spec
    [⟨"i1".toList, "a".toList, 5000, false⟩, ⟨"i2".toList, "a".toList, 7000, false⟩]
    "a".toList (some 7) (by decide)

/-! ### C2 -/

theorem cand_length_lt (base : Str) (k : Nat) :
    (cand base k).length < (cand base (k + 1)).length := by
  simp only [cand, List.length_append, List.length_cons]
  omega

theorem cand_length_strictMono (base : Str) :
    StrictMono (fun k => (cand base k).length) :=
  strictMono_nat_of_lt_succ (fun k => cand_length_lt base k)

theorem candExt_injective (base : Str) :
    Function.Injective (fun k => cand base k ++ NOTE_EXTENSION) := by
  intro i j hij
  by_contra hne
  have hij' : cand base i ++ NOTE_EXTENSION = cand base j ++ NOTE_EXTENSION := hij
  have hlen : (cand base i ++ NOTE_EXTENSION).length
      = (cand base j ++ NOTE_EXTENSION).length := by rw [hij']
  simp only [List.length_append] at hlen
  have : (cand base i).length = (cand base j).length := by omega
  exact hne ((cand_length_strictMono base).injective this)

theorem nodup_subset_length {α : Type} [DecidableEq α] {l₁ l₂ : List α}
    (hnd : l₁.Nodup) (hsub : l₁ ⊆ l₂) : l₁.length ≤ l₂.length := by
  have h1 : l₁.length = l₁.toFinset.card := (List.toFinset_card_of_nodup hnd).symm
  have h2 : l₁.toFinset ⊆ l₂.toFinset := by
    intro x hx
    rw [List.mem_toFinset] at hx ⊢
    exact hsub hx
  calc l₁.length = l₁.toFinset.card := h1
    _ ≤ l₂.toFinset.card := Finset.card_le_card h2
    _ ≤ l₂.length := l₂.toFinset_card_le

theorem cand_bound (base : Str) (existing : List Str) (m : Nat)
    (hmem : ∀ j, j < m → cand base j ++ NOTE_EXTENSION ∈ existing) :
    m ≤ existing.length := by
  have hnd : ((List.range m).map (fun j => cand base j ++ NOTE_EXTENSION)).Nodup :=
    (List.nodup_range m).map (candExt_injective base)
  have hsub : ((List.range m).map (fun j => cand base j ++ NOTE_EXTENSION)) ⊆ existing := by
    intro x hx
    simp only [List.mem_map, List.mem_range] at hx
    obtain ⟨j, hj, rfl⟩ := hx
    exact hmem j hj
  have := nodup_subset_length hnd hsub
  simpa using this

theorem getNoteFilenameLoop_reaches (existing : List Str) (base : Str) (m : Nat)
    (hmem : ∀ j, j < m → cand base j ++ NOTE_EXTENSION ∈ existing)
    (hnot : cand base m ++ NOTE_EXTENSION ∉ existing) :
    ∀ fuel k, k ≤ m → m - k < fuel →
      getNoteFilenameLoop existing false (cand base k) k fuel
        = some (cand base m ++ NOTE_EXTENSION) := by
  intro fuel
  induction fuel with
  | zero => intro k _ hf; omega
  | succ fuel ih =>
    intro k hk hf
    by_cases hkm : k = m
    · subst hkm
      unfold getNoteFilenameLoop
      rw [if_neg hnot]
    · have hklt : k < m := lt_of_le_of_ne hk hkm
      unfold getNoteFilenameLoop
      rw [if_pos (hmem k hklt)]
      have hc : cand base k ++ '-' :: (Nat.repr (k + 1)).toList = cand base (k + 1) := rfl
      simp only [Bool.false_eq_true, if_false, hc]
      exact ih (k + 1) hklt (by omega)

/-- C2 counterexample: with collisions `a.md` and `a-1.md` already present,
the claim predicts the probe sequence `a`, `a-1`, `a-2` and hence the name
`a-2.md`; the code appends each new suffix to the current name
(`note_name += f'-{count}'`) and returns `a-1-2.md`. -/
theorem get_note_filename_counterexample :
    get_note_filename ["a.md".toList, "a-1.md".toList] false "a".toList
        = some "a-1-2.md".toList ∧
      "a-1-2.md".toList ≠ "a-2.md".toList := by decide

/-- C2 (amended): for every standardized base and every set of existing
output names, with overwrite disabled the resolver probes the candidates
`base`, `base-1`, `base-1-2`, … — each candidate obtained by appending
`-k` to the previous candidate — and returns the first one that does not
already exist; with overwrite enabled it returns the unmodified `base`
name even when a file of that name exists. -/
theorem get_note_filename_spec (existing : List Str) (folder : Str) (m : Nat)
    (hmem : ∀ j, j < m →
      cand (standardize_note_name folder) j ++ NOTE_EXTENSION ∈ existing)
    (hnot : cand (standardize_note_name folder) m ++ NOTE_EXTENSION ∉ existing) :
    get_note_filename existing false folder
        = some (cand (standardize_note_name folder) m ++ NOTE_EXTENSION) ∧
      ∀ ex2 : List Str, get_note_filename ex2 true folder
        = some (standardize_note_name folder ++ NOTE_EXTENSION) := by
  constructor
  · have hb := cand_bound (standardize_note_name folder) existing m hmem
    have h0 : getNoteFilenameLoop existing false (cand (standardize_note_name folder) 0) 0
        (existing.length + 1) = some (cand (standardize_note_name folder) m ++ NOTE_EXTENSION) :=
      getNoteFilenameLoop_reaches existing (standardize_note_name folder) m hmem hnot
        (existing.length + 1) 0 (Nat.zero_le m) (by omega)
    simpa [get_note_filename, cand] using h0
  · intro ex2
    unfold get_note_filename getNoteFilenameLoop
    by_cases hmem2 : standardize_note_name folder ++ NOTE_EXTENSION ∈ ex2
    · rw [if_pos hmem2]
      rfl
    · rw [if_neg hmem2]

/-- C2 witness: one existing collision, second folder gets `a-1.md`. -/
theorem get_note_filename_spec_witness :
    (∀ j, j < 1 →
      cand (standardize_note_name "a".toList) j ++ NOTE_EXTENSION ∈ ["a.md".toList]) ∧
    (cand (standardize_note_name "a".toList) 1 ++ NOTE_EXTENSION ∉ ["a.md".toList]) ∧
    (get_note_filename ["a.md".toList] false "a".toList
        = some (cand (standardize_note_name "a".toList) 1 ++ NOTE_EXTENSION) ∧
      ∀ ex2 : List Str, get_note_filename ex2 true "a".toList
        = some (standardize_note_name "a".toList ++ NOTE_EXTENSION)) :=
  ⟨by decide, by decide,
    get_note_filename_spec ["a.md".toList] "a".toList 1 (by decide) (by decide)⟩

/-! ### C5 -/

theorem foldl_stepLink_of_none (dbm : List (Str × Str)) :
    ∀ (L : List LinkMatch) (st : Str × Bool),
      (∀ m ∈ L, alookup dbm m.id = none) → L.foldl (stepLink dbm) st = st := by
  intro L
  induction L with
  | nil => intro st _; rfl
  | cons m L ih =>
    intro st h
    have hm : alookup dbm m.id = none := h m (by simp)
    have hstep : stepLink dbm st m = st := by
      simp [stepLink, hm]
    rw [List.foldl_cons, hstep]
    exact ih st (fun x hx => h x (by simp [hx]))

theorem processLinkMatches_of_none (dbm : List (Str × Str)) (st : Str × Bool)
    (ms : List LinkMatch) (h : ∀ m ∈ ms, alookup dbm m.id = none) :
    processLinkMatches dbm st ms = st := by
  unfold processLinkMatches
  exact foldl_stepLink_of_none dbm ms.reverse st
    (fun m hm => h m (List.mem_reverse.mp hm))

theorem foldl_stepLink_dirty (dbm : List (Str × Str)) :
    ∀ (L : List LinkMatch) (st : Str × Bool),
      (L.foldl (stepLink dbm) st).2 = true →
      st.2 = true ∨ ∃ m ∈ L, (alookup dbm m.id).isSome := by
  intro L
  induction L with
  | nil => intro st h; exact Or.inl h
  | cons m L ih =>
    intro st h
    rw [List.foldl_cons] at h
    rcases ih (stepLink dbm st m) h with hd | ⟨m', hm', hs⟩
    · rcases hl : alookup dbm m.id with _ | c
      · simp [stepLink, hl] at hd
        exact Or.inl hd
      · exact Or.inr ⟨m, by simp, by simp [hl]⟩
    · exact Or.inr ⟨m', by simp [hm'], hs⟩

theorem processLinkMatches_dirty (dbm : List (Str × Str)) (st : Str × Bool)
    (ms : List LinkMatch) (h : (processLinkMatches dbm st ms).2 = true) :
    st.2 = true ∨ ∃ m ∈ ms, (alookup dbm m.id).isSome := by
  unfold processLinkMatches at h
  rcases foldl_stepLink_dirty dbm ms.reverse st h with hd | ⟨m, hm, hs⟩
  · exact Or.inl hd
  · exact Or.inr ⟨m, List.mem_reverse.mp hm, hs⟩

theorem processNoteLinksBody_of_none (dbm : List (Str × Str))
    (fs : List (Str → List LinkMatch)) (content : Str)
    (h : ∀ f ∈ fs, ∀ m ∈ f content, alookup dbm m.id = none) :
    processNoteLinksBody dbm fs content = (content, false) := by
  unfold processNoteLinksBody
  induction fs with
  | nil => rfl
  | cons f fs ih =>
    rw [List.foldl_cons]
    have h1 : processLinkMatches dbm (content, false) (f (content, false).1)
        = (content, false) :=
      processLinkMatches_of_none dbm (content, false) (f content)
        (fun m hm => h f (by simp) m hm)
    rw [h1]
    exact ih (fun g hg m hm => h g (by simp [hg]) m hm)

theorem processNoteLinksBody_dirty (dbm : List (Str × Str)) :
    ∀ (fs : List (Str → List LinkMatch)) (st : Str × Bool),
      (fs.foldl (fun st f => processLinkMatches dbm st (f st.1)) st).2 = true →
      st.2 = true ∨ ∃ f ∈ fs, ∃ c : Str, ∃ m ∈ f c, (alookup dbm m.id).isSome := by
  intro fs
  induction fs with
  | nil => intro st h; exact Or.inl h
  | cons f fs ih =>
    intro st h
    rw [List.foldl_cons] at h
    rcases ih _ h with hd | ⟨g, hg, c, m, hm, hs⟩
    · rcases processLinkMatches_dirty dbm st (f st.1) hd with hd2 | ⟨m, hm, hs⟩
      · exact Or.inl hd2
      · exact Or.inr ⟨f, by simp, st.1, m, hm, hs⟩
    · exact Or.inr ⟨g, by simp [hg], c, m, hm, hs⟩

/-- C5: if none of the link matches of a document's body resolve in the
identifier index, the body is left byte-for-byte unchanged and no write
occurs; and in general a write occurs only when at least one link match
(of some pass, over the body it was scanned from) resolved. -/
theorem process_note_links_frame (dbm : List (Str × Str))
    (fs : List (Str → List LinkMatch)) (content : Str)
    (h : ∀ f ∈ fs, ∀ m ∈ f content, alookup dbm m.id = none) :
    processNoteLinksWrite dbm fs content = none ∧
    processNoteLinksBody dbm fs content = (content, false) ∧
    (∀ (dbm2 : List (Str × Str)) (fs2 : List (Str → List LinkMatch)) (c2 : Str),
      processNoteLinksWrite dbm2 fs2 c2 ≠ none →
      ∃ f ∈ fs2, ∃ c : Str, ∃ m ∈ f c, (alookup dbm2 m.id).isSome) := by
  have hbody := processNoteLinksBody_of_none dbm fs content h
  refine ⟨?_, hbody, ?_⟩
  · simp [processNoteLinksWrite, hbody]
  · intro dbm2 fs2 c2 hw
    unfold processNoteLinksWrite at hw
    by_cases hd : (processNoteLinksBody dbm2 fs2 c2).2 = true
    · rcases processNoteLinksBody_dirty dbm2 fs2 (c2, false) hd with hfalse | hex
      · simp at hfalse
      · exact hex
    · exfalso
      apply hw
      simp only [Bool.not_eq_true] at hd
      simp [hd]

/-- C5 witness: a single link pattern whose only match does not resolve in
an empty container map. -/
theorem process_note_links_frame_witness :
    processNoteLinksWrite [] [fun _ => [⟨"i1".toList, "L".toList, 2, 5⟩]] "ab link".toList
        = none ∧
    processNoteLinksBody [] [fun _ => [⟨"i1".toList, "L".toList, 2, 5⟩]] "ab link".toList
        = ("ab link".toList, false) ∧
    (∀ (dbm2 : List (Str × Str)) (fs2 : List (Str → List LinkMatch)) (c2 : Str),
      processNoteLinksWrite dbm2 fs2 c2 ≠ none →
      ∃ f ∈ fs2, ∃ c : Str, ∃ m ∈ f c, (alookup dbm2 m.id).isSome) :=
  process_note_links_frame [] [fun _ => [⟨"i1".toList, "L".toList, 2, 5⟩]]
    "ab link".toList (fun _ _ _ _ => rfl)

/-! ### C9 -/

theorem readLoop_same_name (rid rname rtitle : Str) (rdc rdu : Option Nat)
    (rsize : Nat) :
    ∀ (atts : List AttachmentMetadata), (∀ a ∈ atts, a.name ≠ []) →
      ∀ (cur : Note) (acc : List Note), cur.body.name = rname →
      readLoop
        (atts.map (fun a =>
          ⟨rid, rname, rtitle, rdc, rdu, rsize, a.name, some a.size⟩))
        (some cur) acc
        = some (acc ++ [⟨cur.body, cur.attachments ++ atts⟩]) := by
  intro atts
  induction atts with
  | nil =>
    intro _ cur acc _
    simp [readLoop]
  | cons a atts ih =>
    intro h cur acc hname
    have ha : a.name ≠ [] := h a (by simp)
    simp only [List.map_cons, readLoop, parseAttCell, if_neg ha, Option.toList_some]
    rw [if_pos hname]
    have := ih (fun x hx => h x (by simp [hx]))
      ⟨cur.body, cur.attachments ++ [⟨a.name, a.size⟩]⟩ acc hname
    simp only [Option.toList_some] at this
    rw [this]
    simp

/-- C9 counterexample: the round trip fails as universally stated.  A
document with no creation date is written fine but the reader parses both
date cells unconditionally, so reading raises (`none`); and an attachment
with an empty name is written as an empty cell and silently dropped by the
reader. -/
theorem report_round_trip_counterexample :
    read_report_csv (add_report_csv ⟨none, "a".toList, none, 0, none, none, some 5⟩
        [⟨"x".toList, 1⟩, ⟨"y".toList, 2⟩]) = none ∧
    read_report_csv (add_report_csv ⟨none, "b".toList, none, 0, none, some 3, some 5⟩
        [⟨[], 7⟩])
      = some [⟨⟨some [], "b".toList, some [], 0, none, some 3, some 5⟩, []⟩] ∧
    ([] : List AttachmentMetadata) ≠ [⟨[], 7⟩] := by decide

/-- C9 (amended): for every document whose creation and update dates are
present and whose attachments all have nonempty names, writing its
metadata followed by its attachment rows and reading the report back
reconstructs exactly one logical entry carrying the same attachments in
the original order (the id and title come back as plain, possibly empty,
strings and the url is not round-tripped). -/
theorem report_round_trip (note : NoteMetadata) (atts : List AttachmentMetadata)
    (dc du : Nat) (hdc : note.date_created = some dc) (hdu : note.date_updated = some du)
    (hatt : ∀ a ∈ atts, a.name ≠ []) :
    read_report_csv (add_report_csv note atts)
      = some [⟨⟨some (note.id.getD []), note.name, some (note.title.getD []),
                note.size, none, note.date_created, note.date_updated⟩, atts⟩] := by
  rcases atts with _ | ⟨a, rest⟩
  · simp only [add_report_csv, if_pos rfl, read_report_csv, readLoop, parseAttCell,
      if_pos rfl, noteMetadataFromLine, hdc, hdu]
    simp [hdc, hdu]
  · have hane : a.name ≠ [] := hatt a (by simp)
    have hmapeq : add_report_csv note (a :: rest)
        = (a :: rest).map (fun x =>
            (⟨note.id.getD [], note.name, note.title.getD [], some dc,
              some du, note.size, x.name, some x.size⟩ : ReportRow)) := by
      simp [add_report_csv, hdc, hdu]
    rw [hmapeq, List.map_cons]
    simp only [read_report_csv, readLoop, parseAttCell, if_neg hane,
      noteMetadataFromLine, Option.toList_some]
    have := readLoop_same_name (note.id.getD []) note.name (note.title.getD [])
      (some dc) (some du) note.size rest (fun x hx => hatt x (by simp [hx]))
      ⟨⟨some (note.id.getD []), note.name, some (note.title.getD []),
        note.size, none, some dc, some du⟩, [⟨a.name, a.size⟩]⟩ [] rfl
    simp only [Option.toList_some] at this
    rw [this]
    simp [hdc, hdu]

/-- C9 witness: a concrete document with two attachments round-trips to a
single entry with both attachments in order. -/
theorem report_round_trip_witness :
    read_report_csv (add_report_csv
        ⟨some "i".toList, "n.md".toList, some "T".toList, 9, none, some 3, some 5⟩
        [⟨"x.png".toList, 1⟩, ⟨"y.png".toList, 2⟩])
      = some [⟨⟨some "i".toList, "n.md".toList, some "T".toList, 9, none, some 3, some 5⟩,
              [⟨"x.png".toList, 1⟩, ⟨"y.png".toList, 2⟩]⟩] :=
  report_round_trip
    ⟨some "i".toList, "n.md".toList, some "T".toList, 9, none, some 3, some 5⟩
    [⟨"x.png".toList, 1⟩, ⟨"y.png".toList, 2⟩] 3 5 rfl rfl (by decide)

/-! ### C4 -/

/-- C4: for every body whose (first) tag declaration is
`tags: [foo-bar, Foo_Bar]`, the tag pass strips and normalizes the two
comma-separated tokens (`foo-bar` and `Foo_Bar` both normalize to
`foobar`, differing from their originals) and rewrites every inline
occurrence of `#foo-bar` and then of `#Foo_Bar` in the whole body to
`#foobar` — the global sequential substring replacements of the claim. -/
theorem standardize_tags_spec (body : Str)
    (hsearch : searchTags body = some "foo-bar, Foo_Bar".toList) :
    standardize_tags body
      = replaceAll "#Foo_Bar".toList "#foobar".toList
          (replaceAll "#foo-bar".toList "#foobar".toList body) := by
  unfold standardize_tags
  rw [hsearch]
  rfl

/-- C4 witness: a concrete body containing the declaration and both tags
inline. -/
theorem standardize_tags_spec_witness :
    searchTags "tags: [foo-bar, Foo_Bar]\n#foo-bar and #Foo_Bar".toList
        = some "foo-bar, Foo_Bar".toList ∧
      standardize_tags "tags: [foo-bar, Foo_Bar]\n#foo-bar and #Foo_Bar".toList
        = replaceAll "#Foo_Bar".toList "#foobar".toList
            (replaceAll "#foo-bar".toList "#foobar".toList
              "tags: [foo-bar, Foo_Bar]\n#foo-bar and #Foo_Bar".toList) :=
  ⟨by decide,
   standardize_tags_spec "tags: [foo-bar, Foo_Bar]\n#foo-bar and #Foo_Bar".toList
     (by decide)⟩

/-! ### C6 -/

theorem alookup_cons {κ α : Type} [DecidableEq κ] (p : κ × α) (m : List (κ × α))
    (k : κ) :
    alookup (p :: m) k = if p.1 = k then some p.2 else alookup m k := by
  unfold alookup
  by_cases h : p.1 = k
  · rw [List.find?_cons_of_pos _ (by simp [h])]
    simp [h]
  · rw [List.find?_cons_of_neg _ (by simp [h])]
    rw [if_neg h]

theorem alookup_append {κ α : Type} [DecidableEq κ] (m1 m2 : List (κ × α)) (k : κ) :
    alookup (m1 ++ m2) k = (alookup m1 k).or (alookup m2 k) := by
  induction m1 with
  | nil => simp [alookup]
  | cons p m ih =>
    by_cases hp : p.1 = k
    · simp [alookup_cons, hp]
    · simpa [alookup_cons, hp] using ih

theorem alookup_map_overwrite {κ α : Type} [DecidableEq κ] (k : κ) (v : α) :
    ∀ (m : List (κ × α)) (t : κ),
      alookup (m.map (fun p => if p.1 = k then (p.1, v) else p)) t
        = if k = t then (alookup m k).map (fun _ => v) else alookup m t := by
  intro m
  induction m with
  | nil =>
    intro t
    by_cases h : k = t <;> simp [alookup, h]
  | cons p m ih =>
    intro t
    simp only [List.map_cons]
    by_cases hkt : k = t
    · subst hkt
      by_cases hp : p.1 = k
      · simp [hp, alookup_cons]
      · simp [hp, alookup_cons, ih]
    · by_cases hp : p.1 = k
      · have hpt : ¬ p.1 = t := by
          rw [hp]
          exact hkt
        simp [hp, hpt, alookup_cons, ih, hkt, Ne.symm hkt]
      · by_cases hpt : p.1 = t
        · simp [hp, hpt, alookup_cons, hkt, Ne.symm hkt]
        · simp [hp, hpt, alookup_cons, ih, hkt, Ne.symm hkt]

theorem alookup_dictSet {κ α : Type} [DecidableEq κ] (m : List (κ × α))
    (k : κ) (v : α) (t : κ) :
    alookup (dictSet m k v) t = if k = t then some v else alookup m t := by
  unfold dictSet
  by_cases hs : (alookup m k).isSome
  · rw [if_pos hs, alookup_map_overwrite]
    by_cases hkt : k = t
    · subst hkt
      obtain ⟨w, hw⟩ := Option.isSome_iff_exists.mp hs
      simp [hw]
    · simp [hkt]
  · rw [if_neg hs, alookup_append]
    have hnone : alookup m k = none := Option.not_isSome_iff_eq_none.mp hs
    by_cases hkt : k = t
    · subst hkt
      rw [hnone]
      simp [alookup_cons]
    · by_cases hmt : (alookup m t).isSome
      · obtain ⟨w, hw⟩ := Option.isSome_iff_exists.mp hmt
        simp [hw, hkt]
      · have hmt2 : alookup m t = none := Option.not_isSome_iff_eq_none.mp hmt
        simp [hmt2, hkt, alookup_cons, alookup]

theorem alookup_backAdd (m : List (Str × List Str)) (c name t : Str) :
    alookup (backAdd m c name) t
      = if c = t then some ((alookup m c).getD [] ++ [name]) else alookup m t := by
  unfold backAdd
  rcases hl : alookup m c with _ | l
  · rw [alookup_dictSet]
    simp [hl]
  · rcases l with _ | ⟨x, xs⟩
    · rw [alookup_dictSet]
      simp [hl]
    · rw [alookup_dictSet]
      simp [hl]

theorem linksOf_foldBack (name : Str) :
    ∀ (cs : List Str) (m : List (Str × List Str)) (t : Str),
      (alookup (cs.foldl (fun m c => backAdd m c name) m) t).getD []
        = (alookup m t).getD []
          ++ (cs.filter (fun c => decide (c = t))).map (fun _ => name) := by
  intro cs
  induction cs with
  | nil => intro m t; simp
  | cons c cs ih =>
    intro m t
    rw [List.foldl_cons, ih, alookup_backAdd]
    by_cases ht : c = t
    · subst ht
      simp [List.filter_cons]
    · simp [List.filter_cons, ht, if_neg ht]

theorem isSome_foldBack (name : Str) :
    ∀ (cs : List Str) (m : List (Str × List Str)) (t : Str),
      (alookup (cs.foldl (fun m c => backAdd m c name) m) t).isSome
        = ((alookup m t).isSome || cs.contains t) := by
  intro cs
  induction cs with
  | nil => intro m t; simp
  | cons c cs ih =>
    intro m t
    rw [List.foldl_cons, ih, alookup_backAdd]
    by_cases ht : c = t
    · subst ht
      simp
    · have htc : ¬ t = c := fun he => ht he.symm
      simp [ht, htc]

theorem linksOf_buildBacklinks (el : Str → List Str) :
    ∀ (notes : List (Str × Str)) (m : List (Str × List Str)) (t : Str),
      (alookup (notes.foldl
          (fun m note => ((el note.2).map baseNameOf).foldl
            (fun m c => backAdd m c note.1) m) m) t).getD []
        = (alookup m t).getD [] ++ incomingLinks el notes t := by
  intro notes
  induction notes with
  | nil => intro m t; simp [incomingLinks]
  | cons note notes ih =>
    intro m t
    rw [List.foldl_cons, ih, linksOf_foldBack]
    simp only [incomingLinks, List.flatMap_cons]
    rw [List.append_assoc]

theorem isSome_buildBacklinks (el : Str → List Str) :
    ∀ (notes : List (Str × Str)) (m : List (Str × List Str)) (t : Str),
      (alookup (notes.foldl
          (fun m note => ((el note.2).map baseNameOf).foldl
            (fun m c => backAdd m c note.1) m) m) t).isSome
        = ((alookup m t).isSome
            || notes.any (fun note => ((el note.2).map baseNameOf).contains t)) := by
  intro notes
  induction notes with
  | nil => intro m t; simp
  | cons note notes ih =>
    intro m t
    rw [List.foldl_cons, ih, isSome_foldBack]
    simp [Bool.or_assoc]

theorem incoming_ne_nil_iff (el : Str → List Str) (notes : List (Str × Str)) (t : Str) :
    (incomingLinks el notes t ≠ []) ↔
      notes.any (fun note => ((el note.2).map baseNameOf).contains t) = true := by
  induction notes with
  | nil => simp [incomingLinks]
  | cons note notes ih =>
    simp only [incomingLinks, List.flatMap_cons, List.any_cons, Bool.or_eq_true]
    constructor
    · intro h
      by_cases h1 : (((el note.2).map baseNameOf).filter (fun c => decide (c = t))).map
          (fun _ => note.1) = []
      · right
        apply ih.mp
        intro h2
        apply h
        rw [h1, show (notes.flatMap fun note =>
          (((el note.2).map baseNameOf).filter (fun c => decide (c = t))).map
            (fun _ => note.1)) = incomingLinks el notes t from rfl, h2]
        rfl
      · left
        simp only [List.map_eq_nil_iff, List.filter_eq_nil_iff, not_forall] at h1
        obtain ⟨c, hc, hct⟩ := h1
        simp only [decide_eq_true_eq, Decidable.not_not] at hct
        subst hct
        exact List.elem_iff.mpr hc
    · intro h habs
      rw [List.append_eq_nil] at habs
      obtain ⟨h1, h2⟩ := habs
      rcases h with h | h
      · simp only [List.map_eq_nil_iff, List.filter_eq_nil_iff] at h1
        have hmem := List.elem_iff.mp h
        have := h1 t hmem
        simp at this
      · exact (ih.mpr h)
          (by rw [show (notes.flatMap fun note =>
            (((el note.2).map baseNameOf).filter (fun c => decide (c = t))).map
              (fun _ => note.1)) = incomingLinks el notes t from rfl] at h2; exact h2)

/-- C6: the backlink pass builds, from the standardized corpus, a map from
target name to the ordered list of linking note names (scan order,
duplicates kept: a note linking twice contributes two entries); every
target with at least one incoming link is rewritten to its body with the
backlink section for exactly that list appended, and a target with no
incoming links receives no write. -/
theorem process_backlinks_spec (el : Str → List Str) (notes : List (Str × Str))
    (hex : (buildBacklinksMap el notes).all
      (fun kv => (alookup notes kv.1).isSome) = true) :
    (∀ t : Str, (alookup (buildBacklinksMap el notes) t).getD []
        = incomingLinks el notes t) ∧
    (∃ ws, processBacklinksWrites el notes = some ws ∧
      (∀ t c, incomingLinks el notes t ≠ [] → alookup notes t = some c →
        (t, inject_backlinks (incomingLinks el notes t) c) ∈ ws) ∧
      (∀ t, incomingLinks el notes t = [] → ∀ c, (t, c) ∉ ws)) := by
  have hlinks : ∀ t, (alookup (buildBacklinksMap el notes) t).getD []
      = incomingLinks el notes t := by
    intro t
    have := linksOf_buildBacklinks el notes [] t
    simpa [buildBacklinksMap, alookup] using this
  have hsome : ∀ t, (alookup (buildBacklinksMap el notes) t).isSome
      = notes.any (fun note => ((el note.2).map baseNameOf).contains t) := by
    intro t
    have := isSome_buildBacklinks el notes [] t
    simpa [buildBacklinksMap, alookup] using this
  refine ⟨hlinks, ?_⟩
  refine ⟨(buildBacklinksMap el notes).map
    (fun kv => (kv.1, inject_backlinks kv.2 ((alookup notes kv.1).getD []))), ?_, ?_, ?_⟩
  · simp [processBacklinksWrites, hex]
  · intro t c hne hc
    have hs : (alookup (buildBacklinksMap el notes) t).isSome := by
      rw [hsome]
      exact (incoming_ne_nil_iff el notes t).mp hne
    obtain ⟨l, hl⟩ := Option.isSome_iff_exists.mp hs
    have hfind := hl
    unfold alookup at hfind
    rw [Option.map_eq_some'] at hfind
    obtain ⟨kv, hkv, hkv2⟩ := hfind
    have hmem := List.mem_of_find?_eq_some hkv
    have hkey : kv.1 = t := by
      have := List.find?_some hkv
      simpa using this
    have hval : kv.2 = incomingLinks el notes t := by
      have h2 : (alookup (buildBacklinksMap el notes) t).getD [] = l := by
        rw [hl]
        rfl
      rw [hlinks t] at h2
      rw [hkv2]
      exact h2.symm
    refine List.mem_map.mpr ⟨kv, hmem, ?_⟩
    rw [hkey, hval, hc]
    rfl
  · intro t hnil c hmem
    have hs : (alookup (buildBacklinksMap el notes) t).isSome = false := by
      rw [hsome]
      by_contra hne
      simp only [Bool.not_eq_false] at hne
      exact ((incoming_ne_nil_iff el notes t).mpr hne) hnil
    have hnone : alookup (buildBacklinksMap el notes) t = none :=
      Option.not_isSome_iff_eq_none.mp (by simp [hs])
    unfold alookup at hnone
    rw [Option.map_eq_none', List.find?_eq_none] at hnone
    rcases List.mem_map.mp hmem with ⟨kv, hkv, hkveq⟩
    have hno := hnone kv hkv
    simp only [decide_eq_true_eq] at hno
    apply hno
    have : (kv.1, inject_backlinks kv.2 ((alookup notes kv.1).getD [])).1 = t := by
      rw [hkveq]
    simpa using this

/-- C6 witness: notes `a.md` and `c.md` both link to `b.md`, which receives
a section listing both in scan order; a target with no incoming links
receives no write. -/
theorem process_backlinks_spec_witness :
    (∀ t : Str, (alookup (buildBacklinksMap
        (fun s => if s = "x".toList then ["b.md".toList]
          else if s = "y".toList then ["b.md".toList] else [])
        [("a.md".toList, "x".toList), ("c.md".toList, "y".toList),
         ("b.md".toList, "z".toList)]) t).getD []
      = incomingLinks
        (fun s => if s = "x".toList then ["b.md".toList]
          else if s = "y".toList then ["b.md".toList] else [])
        [("a.md".toList, "x".toList), ("c.md".toList, "y".toList),
         ("b.md".toList, "z".toList)] t) ∧
    (∃ ws, processBacklinksWrites
        (fun s => if s = "x".toList then ["b.md".toList]
          else if s = "y".toList then ["b.md".toList] else [])
        [("a.md".toList, "x".toList), ("c.md".toList, "y".toList),
         ("b.md".toList, "z".toList)] = some ws ∧
      (∀ t c, incomingLinks
            (fun s => if s = "x".toList then ["b.md".toList]
              else if s = "y".toList then ["b.md".toList] else [])
            [("a.md".toList, "x".toList), ("c.md".toList, "y".toList),
             ("b.md".toList, "z".toList)] t ≠ [] →
          alookup [("a.md".toList, "x".toList), ("c.md".toList, "y".toList),
            ("b.md".toList, "z".toList)] t = some c →
          (t, inject_backlinks (incomingLinks
            (fun s => if s = "x".toList then ["b.md".toList]
              else if s = "y".toList then ["b.md".toList] else [])
            [("a.md".toList, "x".toList), ("c.md".toList, "y".toList),
             ("b.md".toList, "z".toList)] t) c) ∈ ws) ∧
      (∀ t, incomingLinks
          (fun s => if s = "x".toList then ["b.md".toList]
            else if s = "y".toList then ["b.md".toList] else [])
          [("a.md".toList, "x".toList), ("c.md".toList, "y".toList),
           ("b.md".toList, "z".toList)] t = [] → ∀ c, (t, c) ∉ ws)) :=
  process_backlinks_spec
    (fun s => if s = "x".toList then ["b.md".toList]
      else if s = "y".toList then ["b.md".toList] else [])
    [("a.md".toList, "x".toList), ("c.md".toList, "y".toList),
     ("b.md".toList, "z".toList)] (by decide)

/-! ### C3 and C10: the attachment scan -/

theorem foldr_stepA_eq_runK (gen : Nat → Str) (fs : Str → Nat) (orig : Str) :
    ∀ (ms : List AMatch) (st : ScanState),
      ms.foldr (fun x y => stepA gen fs orig y x) st = runK gen fs orig ms st := by
  intro ms st
  induction ms with
  | nil => rfl
  | cons m ms ih => simp only [List.foldr_cons, runK, ih]

theorem processKind_eq_runK (gen : Nat → Str) (fs : Str → Nat) (c0 : Str)
    (ms : List AMatch) (meta0 : List AttachmentMetadata) (n0 : Nat) :
    processKind gen fs c0 ms meta0 n0 = runK gen fs c0 ms ⟨c0, [], meta0, n0⟩ := by
  unfold processKind
  rw [List.foldl_reverse]
  exact foldr_stepA_eq_runK gen fs c0 ms ⟨c0, [], meta0, n0⟩

theorem stepA_lookup_mono (gen : Nat → Str) (fs : Str → Nat) (orig : Str)
    (st : ScanState) (m : AMatch) (q : Str) (v : Str)
    (h : alookup st.attachments q = some v) :
    alookup (stepA gen fs orig st m).attachments q = some v := by
  unfold stepA
  rcases hl : alookup st.attachments (seg orig m) with _ | w
  · simp only [hl]
    rw [alookup_cons]
    by_cases he : seg orig m = q
    · rw [he] at hl
      rw [hl] at h
      exact absurd h (by simp)
    · rw [if_neg he]
      exact h
  · simp only [hl]
    exact h

theorem runK_lookup_mono (gen : Nat → Str) (fs : Str → Nat) (orig : Str) :
    ∀ (ms : List AMatch) (st : ScanState) (q : Str) (v : Str),
      alookup st.attachments q = some v →
      alookup (runK gen fs orig ms st).attachments q = some v := by
  intro ms
  induction ms with
  | nil => intro st q v h; exact h
  | cons m ms ih =>
    intro st q v h
    exact stepA_lookup_mono gen fs orig (runK gen fs orig ms st) m q v (ih st q v h)

theorem runK_keys (gen : Nat → Str) (fs : Str → Nat) (orig : Str) :
    ∀ (ms : List AMatch) (st : ScanState) (q : Str),
      (alookup (runK gen fs orig ms st).attachments q).isSome
        ↔ ((alookup st.attachments q).isSome = true ∨ ∃ m ∈ ms, seg orig m = q) := by
  intro ms
  induction ms with
  | nil => intro st q; simp [runK]
  | cons m ms ih =>
    intro st q
    by_cases he : seg orig m = q
    · subst he
      constructor
      · intro _
        exact Or.inr ⟨m, by simp, rfl⟩
      · intro _
        show (alookup (stepA gen fs orig (runK gen fs orig ms st) m).attachments
          (seg orig m)).isSome = true
        unfold stepA
        rcases hl : alookup (runK gen fs orig ms st).attachments (seg orig m) with _ | w
        · simp [hl, alookup_cons]
        · simp [hl]
    · have hstep : alookup (stepA gen fs orig (runK gen fs orig ms st) m).attachments q
          = alookup (runK gen fs orig ms st).attachments q := by
        unfold stepA
        rcases hl : alookup (runK gen fs orig ms st).attachments (seg orig m) with _ | w
        · simp [hl, alookup_cons, he]
        · simp [hl]
      show (alookup (stepA gen fs orig (runK gen fs orig ms st) m).attachments q).isSome
          ↔ _
      rw [hstep, ih st q]
      constructor
      · rintro (h | ⟨m', hm', hs⟩)
        · exact Or.inl h
        · exact Or.inr ⟨m', by simp [hm'], hs⟩
      · rintro (h | ⟨m', hm', hs⟩)
        · exact Or.inl h
        · rcases List.mem_cons.mp hm' with rfl | hm2
          · exact absurd hs he
          · exact Or.inr ⟨m', hm2, hs⟩

theorem spansOK_le (orig : Str) :
    ∀ (ms : List AMatch) (p : Nat), spansOK orig p ms = true → p ≤ orig.length := by
  intro ms
  induction ms with
  | nil => intro p h; simpa [spansOK] using h
  | cons m ms ih =>
    intro p h
    simp only [spansOK, Bool.and_eq_true, decide_eq_true_eq] at h
    obtain ⟨⟨h1, h2⟩, h3⟩ := h
    have := ih m.e h3
    omega

theorem spansOK_mono (orig : Str) :
    ∀ (ms : List AMatch) (p q : Nat), p ≤ q → spansOK orig q ms = true →
      spansOK orig p ms = true := by
  intro ms p q hpq h
  cases ms with
  | nil =>
    simp only [spansOK, decide_eq_true_eq] at h ⊢
    omega
  | cons m ms =>
    simp only [spansOK, Bool.and_eq_true, decide_eq_true_eq] at h ⊢
    exact ⟨⟨by omega, h.1.2⟩, h.2⟩

theorem renderFrom_congr (orig : Str) (f g : Str → Str) :
    ∀ (ms : List AMatch) (p : Nat),
      (∀ m ∈ ms, f (seg orig m) = g (seg orig m)) →
      renderFrom orig f p ms = renderFrom orig g p ms := by
  intro ms
  induction ms with
  | nil => intro p _; rfl
  | cons m ms ih =>
    intro p h
    simp only [renderFrom]
    rw [h m (by simp), ih m.e (fun m' hm' => h m' (by simp [hm']))]

theorem renderFrom_split (orig : Str) (f : Str → Str) :
    ∀ (ms : List AMatch) (p q : Nat), p ≤ q → spansOK orig q ms = true →
      renderFrom orig f p ms = (orig.take q).drop p ++ renderFrom orig f q ms := by
  intro ms
  induction ms with
  | nil =>
    intro p q hpq h
    have hq : q ≤ orig.length := by simpa [spansOK] using h
    simp only [renderFrom]
    conv_lhs => rw [← List.take_append_drop q orig]
    rw [List.drop_append_eq_append_drop]
    have hlen : (orig.take q).length = q := by
      rw [List.length_take]
      omega
    rw [hlen, show p - q = 0 from by omega]
    simp
  | cons m ms ih =>
    intro p q hpq h
    have hc := h
    simp only [spansOK, Bool.and_eq_true, decide_eq_true_eq] at hc
    obtain ⟨⟨h1, h2⟩, h3⟩ := hc
    have hblen : m.b ≤ orig.length := le_trans h2 (spansOK_le orig ms m.e h3)
    simp only [renderFrom]
    have ht : (orig.take m.b).take q = orig.take q := by
      rw [List.take_take]
      congr 1
      omega
    have key : (orig.take m.b).drop p = (orig.take q).drop p ++ (orig.take m.b).drop q := by
      conv_lhs => rw [← List.take_append_drop q (orig.take m.b)]
      rw [List.drop_append_eq_append_drop]
      have hlen2 : ((orig.take m.b).take q).length = q := by
        rw [ht, List.length_take]
        omega
      rw [hlen2, show p - q = 0 from by omega, ht]
      simp
    rw [key]
    simp [List.append_assoc]

theorem runK_content (gen : Nat → Str) (fs : Str → Nat) (orig : Str) :
    ∀ (ms : List AMatch) (st : ScanState),
      st.content = orig → spansOK orig 0 ms = true →
      (runK gen fs orig ms st).content
        = renderFrom orig
            (fun q => (alookup (runK gen fs orig ms st).attachments q).getD q) 0 ms := by
  intro ms
  induction ms with
  | nil =>
    intro st hst _
    simpa [runK, renderFrom] using hst
  | cons m ms ih =>
    intro st hst hsp
    have hcs := hsp
    simp only [spansOK, Bool.and_eq_true, decide_eq_true_eq] at hcs
    obtain ⟨⟨_, hbe⟩, hsp'⟩ := hcs
    have hsp0 : spansOK orig 0 ms = true :=
      spansOK_mono orig ms 0 m.e (Nat.zero_le _) hsp'
    have hIH := ih st hst hsp0
    have helen : m.e ≤ orig.length := spansOK_le orig ms m.e hsp'
    have hcong : ∀ m' ∈ ms,
        (alookup (runK gen fs orig (m :: ms) st).attachments (seg orig m')).getD (seg orig m')
          = (alookup (runK gen fs orig ms st).attachments (seg orig m')).getD (seg orig m') := by
      intro m' hm'
      have hsome : (alookup (runK gen fs orig ms st).attachments (seg orig m')).isSome :=
        (runK_keys gen fs orig ms st (seg orig m')).mpr (Or.inr ⟨m', hm', rfl⟩)
      obtain ⟨w', hw'⟩ := Option.isSome_iff_exists.mp hsome
      have hkeep : alookup (runK gen fs orig (m :: ms) st).attachments (seg orig m')
          = some w' :=
        stepA_lookup_mono gen fs orig (runK gen fs orig ms st) m (seg orig m') w' hw'
      rw [hkeep, hw']
    have hv : ∃ v, (runK gen fs orig (m :: ms) st).content
          = splice (runK gen fs orig ms st).content m.b m.e v ∧
        alookup (runK gen fs orig (m :: ms) st).attachments (seg orig m) = some v := by
      show ∃ v, (stepA gen fs orig (runK gen fs orig ms st) m).content = _ ∧
        alookup (stepA gen fs orig (runK gen fs orig ms st) m).attachments (seg orig m)
          = some v
      rcases hl : alookup (runK gen fs orig ms st).attachments (seg orig m) with _ | w
      · refine ⟨ATTACHMENTS_FOLDER ++ '/' ::
          (gen (runK gen fs orig ms st).counter ++ extOf (seg orig m)), ?_, ?_⟩
        · simp [stepA, hl]
        · simp [stepA, hl, alookup_cons]
      · exact ⟨w, by simp [stepA, hl], by simp [stepA, hl]⟩
    obtain ⟨v, hcont, hlook⟩ := hv
    rw [hcont, hIH]
    rw [renderFrom_split orig _ ms 0 m.e (Nat.zero_le _) hsp']
    simp only [List.drop_zero]
    unfold splice
    have hlen : (orig.take m.e).length = m.e := by
      rw [List.length_take]
      omega
    rw [List.take_append_eq_append_take, List.drop_append_eq_append_drop, hlen]
    rw [show m.b - m.e = 0 from by omega, show m.e - m.e = 0 from by omega]
    rw [List.take_take, show min m.b m.e = m.b from by omega]
    rw [show (orig.take m.e).drop m.e = [] from
      List.drop_eq_nil_of_le (le_of_eq hlen)]
    simp only [renderFrom, List.drop_zero, List.take_zero, List.nil_append,
      List.append_nil]
    rw [hlook]
    rw [renderFrom_congr orig
      (fun q => (alookup (runK gen fs orig ms st).attachments q).getD q)
      (fun q => (alookup (runK gen fs orig (m :: ms) st).attachments q).getD q)
      ms m.e (fun m' hm' => (hcong m' hm').symm)]
    simp [List.append_assoc]

theorem tableInv_le (gen : Nat → Str) (lo : Nat) :
    ∀ (tbl : List (Str × Str)) (hi : Nat), tableInv gen lo tbl hi → lo ≤ hi := by
  intro tbl hi h
  cases tbl with
  | nil => exact h
  | cons b rest =>
    obtain ⟨c, _, hlc, hch, _⟩ := h
    omega

theorem stepA_tableInv (gen : Nat → Str) (fs : Str → Nat) (orig : Str)
    (st : ScanState) (m : AMatch) (lo : Nat)
    (h : tableInv gen lo st.attachments st.counter) :
    tableInv gen lo (stepA gen fs orig st m).attachments
      (stepA gen fs orig st m).counter := by
  unfold stepA
  rcases hl : alookup st.attachments (seg orig m) with _ | w
  · simp only [hl]
    exact ⟨st.counter, rfl, tableInv_le gen lo st.attachments st.counter h,
      le_refl _, h⟩
  · simp only [hl]
    exact h

theorem runK_tableInv (gen : Nat → Str) (fs : Str → Nat) (orig : Str) :
    ∀ (ms : List AMatch) (st : ScanState) (lo : Nat),
      tableInv gen lo st.attachments st.counter →
      tableInv gen lo (runK gen fs orig ms st).attachments
        (runK gen fs orig ms st).counter := by
  intro ms
  induction ms with
  | nil => intro st lo h; exact h
  | cons m ms ih =>
    intro st lo h
    exact stepA_tableInv gen fs orig (runK gen fs orig ms st) m lo (ih st lo h)

theorem extOf_shape (p : Str) : extOf p = [] ∨ ∃ s, extOf p = '.' :: s := by
  simp only [extOf, splitExtOfBase]
  split
  · exact Or.inl rfl
  · split
    · exact Or.inl rfl
    · exact Or.inr ⟨_, rfl⟩

theorem takeWhile_ne_dot_append (l r : Str) (h : '.' ∉ l) :
    (l ++ '.' :: r).takeWhile (fun c => c ≠ '.') = l := by
  induction l with
  | nil => simp [List.takeWhile_cons]
  | cons a l ih =>
    have ha : ¬ a = '.' := by
      intro he
      exact h (by simp [he])
    simp only [List.cons_append, List.takeWhile_cons]
    rw [if_pos (by simpa using ha)]
    rw [ih (fun hm => h (by simp [hm]))]

theorem name_distinct (gen : Nat → Str) (hinj : Function.Injective gen)
    (hdot : ∀ n, '.' ∉ gen n) (c1 c2 : Nat) (hne : c1 ≠ c2) (p1 p2 : Str) :
    gen c1 ++ extOf p1 ≠ gen c2 ++ extOf p2 := by
  intro h
  rcases extOf_shape p1 with h1 | ⟨s1, h1⟩ <;> rcases extOf_shape p2 with h2 | ⟨s2, h2⟩
  · rw [h1, h2] at h
    simp only [List.append_nil] at h
    exact hne (hinj h)
  · rw [h1, h2] at h
    simp only [List.append_nil] at h
    apply hdot c1
    rw [h]
    simp
  · rw [h1, h2] at h
    simp only [List.append_nil] at h
    apply hdot c2
    rw [← h]
    simp
  · rw [h1, h2] at h
    have hw := congrArg (List.takeWhile (fun c => c ≠ '.')) h
    rw [takeWhile_ne_dot_append _ _ (hdot c1),
      takeWhile_ne_dot_append _ _ (hdot c2)] at hw
    exact hne (hinj hw)

theorem tableInv_counters (gen : Nat → Str) (lo : Nat) :
    ∀ (tbl : List (Str × Str)) (hi : Nat), tableInv gen lo tbl hi →
      ∀ b ∈ tbl, ∃ c, c < hi ∧
        b.2 = ATTACHMENTS_FOLDER ++ '/' :: (gen c ++ extOf b.1) := by
  intro tbl
  induction tbl with
  | nil => intro hi _ b hb; simp at hb
  | cons hd rest ih =>
    intro hi hinv b hb
    obtain ⟨c, hsh, hlc, hch, hrest⟩ := hinv
    rcases List.mem_cons.mp hb with rfl | hbr
    · exact ⟨c, by omega, hsh⟩
    · obtain ⟨c', hc', hsh'⟩ := ih c hrest b hbr
      exact ⟨c', by omega, hsh'⟩

theorem tableInv_pairwise (gen : Nat → Str) (hinj : Function.Injective gen)
    (hdot : ∀ n, '.' ∉ gen n) (lo : Nat) :
    ∀ (tbl : List (Str × Str)) (hi : Nat), tableInv gen lo tbl hi →
      tbl.Pairwise (fun b1 b2 => b1.2 ≠ b2.2) := by
  intro tbl
  induction tbl with
  | nil => intro hi _; exact List.Pairwise.nil
  | cons hd rest ih =>
    intro hi hinv
    obtain ⟨c, hsh, hlc, hch, hrest⟩ := hinv
    refine List.Pairwise.cons ?_ (ih c hrest)
    intro b hb
    obtain ⟨c', hc', hsh'⟩ := tableInv_counters gen lo rest c hrest b hb
    rw [hsh, hsh']
    intro heq
    have hx := List.append_cancel_left heq
    simp only [List.cons.injEq, true_and] at hx
    exact name_distinct gen hinj hdot c c' (by omega) hd.1 b.1 hx

theorem stepA_meta_att (gen : Nat → Str) (fs : Str → Nat) (orig : Str)
    (st : ScanState) (m : AMatch) :
    (stepA gen fs orig st m).metadata.length + st.attachments.length
      = st.metadata.length + (stepA gen fs orig st m).attachments.length := by
  unfold stepA
  rcases hl : alookup st.attachments (seg orig m) with _ | w
  · simp only [hl, List.length_append, List.length_cons, List.length_nil]
    omega
  · simp only [hl]

theorem runK_meta_att (gen : Nat → Str) (fs : Str → Nat) (orig : Str) :
    ∀ (ms : List AMatch) (st : ScanState),
      (runK gen fs orig ms st).metadata.length + st.attachments.length
        = st.metadata.length + (runK gen fs orig ms st).attachments.length := by
  intro ms
  induction ms with
  | nil => intro st; rfl
  | cons m ms ih =>
    intro st
    have h1 := stepA_meta_att gen fs orig (runK gen fs orig ms st) m
    have h2 := ih st
    show (stepA gen fs orig (runK gen fs orig ms st) m).metadata.length
        + st.attachments.length
      = st.metadata.length
        + (stepA gen fs orig (runK gen fs orig ms st) m).attachments.length
    omega

theorem runK_att_length (gen : Nat → Str) (fs : Str → Nat) (orig : Str) :
    ∀ (ms : List AMatch) (st : ScanState), st.attachments = [] →
      (runK gen fs orig ms st).attachments.length
        = (ms.map (seg orig)).dedup.length := by
  intro ms
  induction ms with
  | nil => intro st hst; simp [runK, hst]
  | cons m ms ih =>
    intro st hst
    show (stepA gen fs orig (runK gen fs orig ms st) m).attachments.length = _
    have hkeys := runK_keys gen fs orig ms st (seg orig m)
    rcases hl : alookup (runK gen fs orig ms st).attachments (seg orig m) with _ | w
    · have hnotin : seg orig m ∉ ms.map (seg orig) := by
        intro hmem
        obtain ⟨m', hm', he⟩ := List.mem_map.mp hmem
        have hsome : (alookup (runK gen fs orig ms st).attachments (seg orig m)).isSome :=
          hkeys.mpr (Or.inr ⟨m', hm', he⟩)
        rw [hl] at hsome
        simp at hsome
      rw [List.map_cons, List.dedup_cons_of_not_mem hnotin]
      simp only [stepA, hl, List.length_cons]
      rw [ih st hst]
    · have hisin : seg orig m ∈ ms.map (seg orig) := by
        have hsome : (alookup (runK gen fs orig ms st).attachments (seg orig m)).isSome := by
          simp [hl]
        rcases hkeys.mp hsome with habs | ⟨m', hm', he⟩
        · rw [hst] at habs
          simp [alookup] at habs
        · exact List.mem_map.mpr ⟨m', hm', he⟩
      rw [List.map_cons, List.dedup_cons_of_mem hisin]
      simp only [stepA, hl]
      exact ih st hst

theorem stepA_keys_nodup (gen : Nat → Str) (fs : Str → Nat) (orig : Str)
    (st : ScanState) (m : AMatch)
    (h : (st.attachments.map Prod.fst).Nodup) :
    ((stepA gen fs orig st m).attachments.map Prod.fst).Nodup := by
  unfold stepA
  rcases hl : alookup st.attachments (seg orig m) with _ | w
  · simp only [hl, List.map_cons]
    refine List.nodup_cons.mpr ⟨?_, h⟩
    intro hmem
    obtain ⟨b, hb, he⟩ := List.mem_map.mp hmem
    unfold alookup at hl
    rw [Option.map_eq_none', List.find?_eq_none] at hl
    have := hl b hb
    simp only [decide_eq_true_eq] at this
    exact this he
  · simp only [hl]
    exact h

theorem runK_keys_nodup (gen : Nat → Str) (fs : Str → Nat) (orig : Str) :
    ∀ (ms : List AMatch) (st : ScanState),
      (st.attachments.map Prod.fst).Nodup →
      ((runK gen fs orig ms st).attachments.map Prod.fst).Nodup := by
  intro ms
  induction ms with
  | nil => intro st h; exact h
  | cons m ms ih =>
    intro st h
    exact stepA_keys_nodup gen fs orig (runK gen fs orig ms st) m (ih st h)

theorem nodup_filter_key :
    ∀ (tbl : List (Str × Str)), (tbl.map Prod.fst).Nodup →
      ∀ (p : Str), (alookup tbl p).isSome →
      (tbl.filter (fun b => decide (b.1 = p))).length = 1 := by
  intro tbl
  induction tbl with
  | nil => intro _ p hs; simp [alookup] at hs
  | cons b tbl ih =>
    intro hnd p hs
    simp only [List.map_cons, List.nodup_cons] at hnd
    obtain ⟨hnotin, hnd'⟩ := hnd
    by_cases hb : b.1 = p
    · have hfil : tbl.filter (fun x => decide (x.1 = p)) = [] := by
        rw [List.filter_eq_nil_iff]
        intro a ha
        simp only [decide_eq_true_eq]
        intro he
        apply hnotin
        rw [hb, ← he]
        exact List.mem_map_of_mem Prod.fst ha
      rw [List.filter_cons]
      simp [hb, hfil]
    · rw [List.filter_cons]
      have hs2 : (alookup tbl p).isSome := by
        rwa [alookup_cons, if_neg hb] at hs
      rw [if_neg (by simpa using hb)]
      exact ih hnd' p hs2

/-- C3: for one reference kind's scan over a body, with a well-formed match
list and a fresh-name supply (injective and dot-free, as uuid4 names are):
the rename table ends with exactly one binding for any path matched k ≥ 2
times; exactly one metadata entry is produced per distinct original path
(the count grows by the number of distinct matched paths, not by k); the
final body is the original with every matched span rewritten to the single
new path assigned to its original path; and each new path has the shape
`attachments/(fresh-name ++ original-extension)`, with distinct bindings
getting distinct new paths. -/
theorem standardize_attachments_dedup
    (gen : Nat → Str) (fileSize : Str → Nat)
    (hinj : Function.Injective gen) (hdot : ∀ n, '.' ∉ gen n)
    (content0 : Str) (ms : List AMatch) (meta0 : List AttachmentMetadata) (c0 : Nat)
    (hsp : spansOK content0 0 ms = true) (p : Str)
    (hk : 2 ≤ (ms.filter (fun m => decide (seg content0 m = p))).length) :
    ((processKind gen fileSize content0 ms meta0 c0).attachments.filter
        (fun b => decide (b.1 = p))).length = 1 ∧
    (processKind gen fileSize content0 ms meta0 c0).metadata.length
        = meta0.length + (ms.map (seg content0)).dedup.length ∧
    (processKind gen fileSize content0 ms meta0 c0).content
        = renderFrom content0
            (fun q => (alookup
              (processKind gen fileSize content0 ms meta0 c0).attachments q).getD q)
            0 ms ∧
    (∀ b ∈ (processKind gen fileSize content0 ms meta0 c0).attachments,
        ∃ c : Nat, b.2 = ATTACHMENTS_FOLDER ++ '/' :: (gen c ++ extOf b.1)) ∧
    (processKind gen fileSize content0 ms meta0 c0).attachments.Pairwise
        (fun b1 b2 => b1.2 ≠ b2.2) := by
  rw [processKind_eq_runK]
  have hmem : ∃ m ∈ ms, seg content0 m = p := by
    rcases hf : ms.filter (fun m => decide (seg content0 m = p)) with _ | ⟨m, rest⟩
    · rw [hf] at hk
      simp at hk
    · have hmf : m ∈ ms.filter (fun m => decide (seg content0 m = p)) := by
        rw [hf]
        simp
      have := List.mem_filter.mp hmf
      exact ⟨m, this.1, by simpa using this.2⟩
  obtain ⟨m0, hm0, hseg0⟩ := hmem
  have hsome : (alookup (runK gen fileSize content0 ms
      ⟨content0, [], meta0, c0⟩).attachments p).isSome :=
    (runK_keys gen fileSize content0 ms ⟨content0, [], meta0, c0⟩ p).mpr
      (Or.inr ⟨m0, hm0, hseg0⟩)
  have hinv := runK_tableInv gen fileSize content0 ms ⟨content0, [], meta0, c0⟩ c0
    (le_refl c0)
  refine ⟨?_, ?_, ?_, ?_, ?_⟩
  · exact nodup_filter_key _
      (runK_keys_nodup gen fileSize content0 ms ⟨content0, [], meta0, c0⟩ (by simp)) p hsome
  · have h1 := runK_meta_att gen fileSize content0 ms ⟨content0, [], meta0, c0⟩
    have h2 := runK_att_length gen fileSize content0 ms ⟨content0, [], meta0, c0⟩ rfl
    simp only [List.length_nil] at h1
    omega
  · exact runK_content gen fileSize content0 ms ⟨content0, [], meta0, c0⟩ rfl hsp
  · intro b hb
    obtain ⟨c, _, hsh⟩ := tableInv_counters gen c0 _ _ hinv b hb
    exact ⟨c, hsh⟩
  · exact tableInv_pairwise gen hinj hdot c0 _ _ hinv

/-- C3 witness: a body whose file pattern matches `x.png` twice; the scan
yields a single rename-table binding and metadata entry for it. -/
theorem standardize_attachments_dedup_witness :
    ((processKind (fun n => List.replicate (n + 1) 'a') (fun _ => 7)
        "[a](x.png) [b](x.png)".toList [⟨4, 9⟩, ⟨15, 20⟩] [] 0).attachments.filter
          (fun b => decide (b.1 = "x.png".toList))).length = 1 ∧
    (processKind (fun n => List.replicate (n + 1) 'a') (fun _ => 7)
        "[a](x.png) [b](x.png)".toList [⟨4, 9⟩, ⟨15, 20⟩] [] 0).metadata.length
      = ([] : List AttachmentMetadata).length
        + (([⟨4, 9⟩, ⟨15, 20⟩] : List AMatch).map
            (seg "[a](x.png) [b](x.png)".toList)).dedup.length :=
  let thm := standardize_attachments_dedup
    (fun n => List.replicate (n + 1) 'a') (fun _ => 7)
    (fun a b h => by
      have h2 := congrArg List.length h
      simp only [List.length_replicate] at h2
      omega)
    (fun n hmem => absurd (List.eq_of_mem_replicate hmem) (by decide))
    "[a](x.png) [b](x.png)".toList [⟨4, 9⟩, ⟨15, 20⟩] [] 0
    (by decide) "x.png".toList (by decide)
  ⟨thm.1, thm.2.1⟩

/-- C10: the rename table is scoped to one reference kind, restarting empty
between the file scan and the image scan of the same body: a path matched
once by each kind yields two metadata entries with two distinct generated
names, and the two occurrences are rewritten to two distinct new paths. -/
theorem attachments_reset_per_kind
    (gen : Nat → Str) (fileSize : Str → Nat)
    (hinj : Function.Injective gen) (hdot : ∀ n, '.' ∉ gen n)
    (content0 : Str) (mFile mImage : Str → List AMatch) (m1 m2 : AMatch) (p : Str)
    (hf : mFile content0 = [m1])
    (hseg1 : seg content0 m1 = p)
    (hi : mImage (processKind gen fileSize content0 (mFile content0) [] 0).content
      = [m2])
    (hseg2 : seg (processKind gen fileSize content0 (mFile content0) [] 0).content m2
      = p) :
    (standardizeAttachments gen fileSize content0 mFile mImage).metadata
        = [⟨gen 0 ++ extOf p, fileSize p⟩, ⟨gen 1 ++ extOf p, fileSize p⟩] ∧
    gen 0 ++ extOf p ≠ gen 1 ++ extOf p ∧
    (standardizeAttachments gen fileSize content0 mFile mImage).content
        = splice (splice content0 m1.b m1.e
              (ATTACHMENTS_FOLDER ++ '/' :: (gen 0 ++ extOf p)))
            m2.b m2.e (ATTACHMENTS_FOLDER ++ '/' :: (gen 1 ++ extOf p)) ∧
    ATTACHMENTS_FOLDER ++ '/' :: (gen 0 ++ extOf p)
        ≠ ATTACHMENTS_FOLDER ++ '/' :: (gen 1 ++ extOf p) := by
  have hst1 : processKind gen fileSize content0 (mFile content0) [] 0
      = ⟨splice content0 m1.b m1.e (ATTACHMENTS_FOLDER ++ '/' :: (gen 0 ++ extOf p)),
         [(p, ATTACHMENTS_FOLDER ++ '/' :: (gen 0 ++ extOf p))],
         [⟨gen 0 ++ extOf p, fileSize p⟩], 1⟩ := by
    rw [hf]
    simp [processKind, stepA, hseg1, alookup]
  rw [hst1] at hi hseg2
  have hname : gen 0 ++ extOf p ≠ gen 1 ++ extOf p :=
    name_distinct gen hinj hdot 0 1 (by omega) p p
  have hst2 : standardizeAttachments gen fileSize content0 mFile mImage
      = ⟨splice (splice content0 m1.b m1.e
            (ATTACHMENTS_FOLDER ++ '/' :: (gen 0 ++ extOf p)))
          m2.b m2.e (ATTACHMENTS_FOLDER ++ '/' :: (gen 1 ++ extOf p)),
         [(p, ATTACHMENTS_FOLDER ++ '/' :: (gen 1 ++ extOf p))],
         [⟨gen 0 ++ extOf p, fileSize p⟩, ⟨gen 1 ++ extOf p, fileSize p⟩], 2⟩ := by
    unfold standardizeAttachments
    rw [hst1]
    have hi2 : mImage (splice content0 m1.b m1.e
        (ATTACHMENTS_FOLDER ++ '/' :: (gen 0 ++ extOf p))) = [m2] := hi
    have hseg22 : seg (splice content0 m1.b m1.e
        (ATTACHMENTS_FOLDER ++ '/' :: (gen 0 ++ extOf p))) m2 = p := hseg2
    show processKind gen fileSize
        (splice content0 m1.b m1.e (ATTACHMENTS_FOLDER ++ '/' :: (gen 0 ++ extOf p)))
        (mImage (splice content0 m1.b m1.e
          (ATTACHMENTS_FOLDER ++ '/' :: (gen 0 ++ extOf p))))
        [⟨gen 0 ++ extOf p, fileSize p⟩] 1 = _
    rw [hi2]
    simp [processKind, stepA, hseg22, alookup]
  refine ⟨?_, hname, ?_, ?_⟩
  · rw [hst2]
  · rw [hst2]
  · intro habs
    have := List.append_cancel_left habs
    simp only [List.cons.injEq, true_and] at this
    exact hname this

/-- C10 witness: the body `(x.png) [x.png]` with one file-pattern match and
one image-pattern match of the same original path. -/
theorem attachments_reset_per_kind_witness :
    (standardizeAttachments (fun n => List.replicate (n + 1) 'a') (fun _ => 7)
        "(x.png) [x.png]".toList (fun _ => [⟨1, 6⟩]) (fun _ => [⟨21, 26⟩])).metadata
      = [⟨(fun n => List.replicate (n + 1) 'a') 0 ++ extOf "x.png".toList, 7⟩,
         ⟨(fun n => List.replicate (n + 1) 'a') 1 ++ extOf "x.png".toList, 7⟩] ∧
    (fun n => List.replicate (n + 1) 'a') 0 ++ extOf "x.png".toList
      ≠ (fun n => List.replicate (n + 1) 'a') 1 ++ extOf "x.png".toList :=
  let thm := attachments_reset_per_kind
    (fun n => List.replicate (n + 1) 'a') (fun _ => 7)
    (fun a b h => by
      have h2 := congrArg List.length h
      simp only [List.length_replicate] at h2
      omega)
    (fun n hmem => absurd (List.eq_of_mem_replicate hmem) (by decide))
    "(x.png) [x.png]".toList (fun _ => [⟨1, 6⟩]) (fun _ => [⟨21, 26⟩])
    ⟨1, 6⟩ ⟨21, 26⟩ "x.png".toList rfl (by decide) rfl (by decide)
  ⟨thm.1, thm.2.1⟩
